import Mathlib

set_option maxHeartbeats 1000000
set_option maxRecDepth 4000

namespace Orgize

/-- Syntax kinds used by the modelled part of the parser. The repository
defines a closed enumeration of node and token kinds in its syntax module;
only the kinds reachable from the headline, section, combinator and
timestamp-accessor code are needed here. -/
inductive SyntaxKind where
  | TEXT
  | WHITESPACE
  | NEW_LINE
  | BLANK_LINE
  | HEADLINE
  | HEADLINE_STARS
  | HEADLINE_KEYWORD
  | HEADLINE_TITLE
  | HEADLINE_TAGS
  | HEADLINE_PRIORITY
  | SECTION
  | PARAGRAPH
  | PLANNING
  | PROPERTY_DRAWER
  | COLON
  | L_BRACKET
  | HASH
  | R_BRACKET
  | MINUS
  | TIMESTAMP_REPEATER_MARK
  | TIMESTAMP_DELAY_MARK
  | TIMESTAMP_VALUE
  | TIMESTAMP_UNIT
  deriving DecidableEq, Repr

/-- Green tree element, following the rowan GreenNode / GreenToken pair used
by the repository: a token holds its kind and literal text (modelled as the
list of its bytes), a node holds its kind and an ordered list of children. -/
inductive GreenElement where
  | token (kind : SyntaxKind) (text : List Nat)
  | node (kind : SyntaxKind) (children : List GreenElement)

/-- Kind of an element, as rowan exposes it on NodeOrToken. -/
def kindOf : GreenElement → SyntaxKind
  | .token k _ => k
  | .node k _ => k

/-- Direct children of an element; a token is a leaf. -/
def elemChildren : GreenElement → List GreenElement
  | .token _ _ => []
  | .node _ cs => cs

mutual

/-- Concatenation of the texts of all tokens of an element, left to right.
This is the to_string / to_source view of a green subtree. -/
def flatten : GreenElement → List Nat
  | .token _ t => t
  | .node _ cs => flattens cs

/-- Concatenation of the flattened texts of a list of elements. -/
def flattens : List GreenElement → List Nat
  | [] => []
  | e :: es => flatten e ++ flattens es

end

/-- Byte test used by nom space0: a space or a tab. -/
def isSpaceTab (b : Nat) : Bool := b = 32 || b = 9

/-- Byte test mirroring u8::is_ascii_whitespace in Rust: space, tab,
line feed, form feed or carriage return. -/
def isAsciiWs (b : Nat) : Bool := b = 32 || b = 9 || b = 10 || b = 12 || b = 13

/-- Byte test for the tag alphabet of headline_tags_node: ASCII alphanumeric
or one of the bytes of _, @, the hash sign and the percent sign. -/
def isTagByte (b : Nat) : Bool :=
  (48 ≤ b && b ≤ 57) || (65 ≤ b && b ≤ 90) || (97 ≤ b && b ≤ 122)
    || b = 95 || b = 64 || b = 35 || b = 37

/-- Model of nom space0 on an input cursor: returns (rest, taken), taking
the maximal run of spaces and tabs. -/
def space0 (input : List Nat) : List Nat × List Nat :=
  (input.dropWhile isSpaceTab, input.takeWhile isSpaceTab)

/-- Transient buffer of children used by the parsers, following
src/syntax/combinator.rs NodeBuilder. -/
structure NodeBuilder where
  children : List GreenElement

/-- Model of NodeBuilder::new. -/
def NodeBuilder.new : NodeBuilder := ⟨[]⟩

/-- Model of NodeBuilder::ws: pushes a WHITESPACE token, silently dropping
an empty input slice. -/
def NodeBuilder.ws (b : NodeBuilder) (i : List Nat) : NodeBuilder :=
  if i.isEmpty then b else ⟨b.children ++ [.token .WHITESPACE i]⟩

/-- Model of NodeBuilder::nl: pushes a NEW_LINE token, silently dropping
an empty input slice. -/
def NodeBuilder.nl (b : NodeBuilder) (i : List Nat) : NodeBuilder :=
  if i.isEmpty then b else ⟨b.children ++ [.token .NEW_LINE i]⟩

/-- Model of NodeBuilder::text. -/
def NodeBuilder.text (b : NodeBuilder) (i : List Nat) : NodeBuilder :=
  ⟨b.children ++ [.token .TEXT i]⟩

/-- Model of NodeBuilder::token. -/
def NodeBuilder.token (b : NodeBuilder) (k : SyntaxKind) (i : List Nat) : NodeBuilder :=
  ⟨b.children ++ [.token k i]⟩

/-- Model of NodeBuilder::push. -/
def NodeBuilder.push (b : NodeBuilder) (e : GreenElement) : NodeBuilder :=
  ⟨b.children ++ [e]⟩

/-- Model of NodeBuilder::push_opt. -/
def NodeBuilder.push_opt (b : NodeBuilder) (e : Option GreenElement) : NodeBuilder :=
  match e with
  | some e => b.push e
  | none => b

/-- Model of NodeBuilder::finish. -/
def NodeBuilder.finish (b : NodeBuilder) (k : SyntaxKind) : GreenElement :=
  .node k b.children

/-- Run of leading star bytes of the input. -/
def starRun (input : List Nat) : List Nat := input.takeWhile (fun b => b = 42)

/-- Model of headline_stars from src/syntax/headline.rs: count the leading
star bytes; fail if there is none; succeed when the run reaches the end of
input or when the byte after the run is a line feed, a carriage return or a
space, splitting off exactly the run. The result pair is (remaining, stars),
following the nom convention used by the source. -/
def headline_stars (input : List Nat) : Option (List Nat × List Nat) :=
  let level := (input.takeWhile (fun b => b = 42)).length
  if level = 0 then none
  else if input.length = level then some (input.drop level, input.take level)
  else if input[level]? = some 10 ∨ input[level]? = some 13 ∨ input[level]? = some 32 then
    some (input.drop level, input.take level)
  else none

/-- Model of the rposition method of Rust byte iterators: the index of the
last byte satisfying the test, if any. -/
def rposition (p : Nat → Bool) (l : List Nat) : Option Nat :=
  (l.reverse.findIdx? p).map (fun j => l.length - 1 - j)

/-- Model of trim_line_end from src/syntax/combinator.rs: split off the
first line (up to and including the first line feed byte, or the whole
input when there is none), split that line right after its last
non-ASCII-whitespace byte, and split the trailing part with space0.
Returns (remaining input, (contents, trailing whitespace, line feeding)),
following the nom pair convention of the source. -/
def trim_line_end (input : List Nat) :
    Option (List Nat × (List Nat × List Nat × List Nat)) :=
  let n := match input.findIdx? (fun b => b = 10) with
    | some i => i + 1
    | none => input.length
  let line := input.take n
  let rest := input.drop n
  let k := match rposition (fun u => ! isAsciiWs u) line with
    | some i => i + 1
    | none => 0
  let contents := line.take k
  let ws_and_nl := line.drop k
  some (rest, (contents, (space0 ws_and_nl).2, (space0 ws_and_nl).1))

/-- Indices of the bytes of a list satisfying a test, in increasing order.
Used to model the memchr and memrchr iterators of the source. -/
def positions (p : Nat → Bool) : List Nat → List Nat
  | [] => []
  | b :: bs =>
    if p b then 0 :: (positions p bs).map (· + 1)
    else (positions p bs).map (· + 1)

/-- Well-formedness of a single element produced by the headline tag scan:
it is a lone colon token, a nonempty TEXT token over the tag alphabet, or a
nonempty WHITESPACE token of spaces and tabs. -/
def tagTokOk : GreenElement → Prop
  | .token .COLON t => t = [58]
  | .token .TEXT t => t ≠ [] ∧ ∀ b ∈ t, isTagByte b = true
  | .token .WHITESPACE t => t ≠ [] ∧ ∀ b ∈ t, isSpaceTab b = true
  | _ => False

/-- Model of the memrchr loop body of headline_tags_node: walk the colon
positions from right to left; between two consecutive colons admit a run
that is empty (a lone colon), all tag-alphabet bytes (a tag), or all spaces
and tabs provided the previous token was not whitespace; stop on the first
failure. The state is (current index, children so far, whitespace flag). -/
def tags_scan (bytes : List Nat) :
    List Nat → Nat → Bool → List GreenElement → Nat × List GreenElement
  | [], i, _, children => (i, children)
  | ii :: rest, i, cnbw, children =>
    let item := (bytes.drop (ii + 1)).take (i - (ii + 1))
    if item.isEmpty then
      tags_scan bytes rest ii false (children ++ [.token .COLON [58]])
    else if item.all isTagByte then
      tags_scan bytes rest ii false
        (children ++ [.token .TEXT item, .token .COLON [58]])
    else if item.all isSpaceTab && !cnbw then
      tags_scan bytes rest ii true
        (children ++ [.token .WHITESPACE item, .token .COLON [58]])
    else (i, children)

/-- Model of headline_tags_node from src/syntax/headline.rs: fail unless the
input ends with a colon byte; scan right to left from the colon before the
trailing one, collecting colon groups; fail when no group was collected or
when the tag region neither starts the slice nor follows a space or a tab;
otherwise return the part before the tag region as the new remaining input
together with the HEADLINE_TAGS node whose children are the collected ones
reversed. -/
def headline_tags_node (input : List Nat) : Option (List Nat × GreenElement) :=
  if input.getLast? ≠ some 58 then none
  else
    let scanned := tags_scan input
      (((positions (fun b => b = 58) input).reverse).drop 1)
      (input.length - 1) true [.token .COLON [58]]
    if scanned.2.length = 1 then none
    else if scanned.1 ≠ 0 ∧ input[scanned.1 - 1]? ≠ some 32 ∧
        input[scanned.1 - 1]? ≠ some 9 then none
    else some (input.take scanned.1, .node .HEADLINE_TAGS scanned.2.reverse)

/-- Count of TEXT tokens among a list of elements. -/
def textTokenCount (cs : List GreenElement) : Nat :=
  cs.countP fun e => match e with
    | .token .TEXT _ => true
    | _ => false

/-- Length of the first line of the input, including its line feed byte, or
the whole input when there is none. -/
def line_len (input : List Nat) : Nat :=
  match input.findIdx? (fun b => b = 10) with
  | some i => i + 1
  | none => input.length

/-- Modelled from the spec: the object parser of src/syntax/object.rs is not
among the provided sources. Spec section 4.7 has the object parser cover the
whole slice, with anything unrecognized consumed as TEXT tokens, so every
byte of the slice is preserved. The model keeps the whole slice as one TEXT
token, which preserves the properties the claims rely on: the output
flattens back to the input, and it holds no HEADLINE or HEADLINE_TAGS node
and no zero-length WHITESPACE or NEW_LINE token. -/
def object_nodes (input : List Nat) : List GreenElement :=
  if input = [] then [] else [.token .TEXT input]

/-- Modelled from the spec: the element parser of src/syntax/element.rs is
not among the provided sources. Spec section 4.5 has the element parser
always succeed inside a section, consuming the whole slice, with paragraph
as the fallback element. The model keeps every byte in one PARAGRAPH of
TEXT, which preserves the properties the claims rely on: totality,
losslessness, and producing no HEADLINE or HEADLINE_TAGS node and no
zero-length WHITESPACE or NEW_LINE token. -/
def element_nodes (input : List Nat) : Option (List GreenElement) :=
  if input = [] then some []
  else some [.node .PARAGRAPH [.token .TEXT input]]

/-- Positions of line starts of the input: zero and every position right
after a line feed, mirroring line_starts_iter of src/syntax/combinator.rs. -/
def line_starts (s : List Nat) : List Nat :=
  0 :: (positions (fun b => b = 10) s).map (· + 1)

/-- Model of section_text from src/syntax/headline.rs: fail on empty input;
walk the line starts in order and return at the first one where
headline_stars succeeds, failing when that start is the very beginning
(empty section); when no line start opens a headline, consume everything. -/
def section_text (input : List Nat) : Option (List Nat × List Nat) :=
  if input = [] then none
  else
    match (line_starts input).find? (fun i => (headline_stars (input.drop i)).isSome) with
    | some i => if input.take i = [] then none else some (input.drop i, input.take i)
    | none => some ([], input)

/-- Model of section_node from src/syntax/headline.rs. -/
def section_node (input : List Nat) : Option (List Nat × GreenElement) :=
  match section_text input with
  | none => none
  | some (rest, sec) =>
    match element_nodes sec with
    | none => none
    | some es => some (rest, .node .SECTION es)

/-- Parse configuration, following ParseConfig of the repository: the two
ordered keyword lists (todo and done), each keyword given by its bytes. -/
structure ParseConfig where
  todo : List (List Nat)
  done : List (List Nat)

/-- Default configuration with the keywords TODO and DONE. -/
def defaultConfig : ParseConfig :=
  ⟨[[84, 79, 68, 79]], [[68, 79, 78, 69]]⟩

/-- Model of headline_keyword_token from src/syntax/headline.rs: take the
maximal run of non-ASCII-whitespace bytes, require it nonempty, accept only
when the word equals one of the configured todo or done keywords, then
consume trailing spaces and tabs. On the valid UTF-8 inputs of the source
the char-level take_while coincides with this byte-level one, since every
byte of a multi-byte character is at least 128. Returns
(rest, (keyword token, whitespace)). -/
def headline_keyword_token (c : ParseConfig) (input : List Nat) :
    Option (List Nat × (GreenElement × List Nat)) :=
  let word := input.takeWhile (fun b => ! isAsciiWs b)
  if word.isEmpty then none
  else if c.todo.any (fun k => k = word) || c.done.any (fun k => k = word) then
    let s := space0 (input.drop word.length)
    some (s.1, (.token .HEADLINE_KEYWORD word, s.2))
  else none

/-- Byte length of the UTF-8 character starting with the given byte; on the
valid UTF-8 inputs of the source this matches how nom anychar steps over
one character. -/
def utf8_len (b : Nat) : Nat :=
  if b < 128 then 1 else if b < 224 then 2 else if b < 240 then 3 else 4

/-- Model of nom anychar on a str input: take one UTF-8 character. -/
def anychar (input : List Nat) : Option (List Nat × List Nat) :=
  match input with
  | [] => none
  | b :: _ =>
    if input.length < utf8_len b then none
    else some (input.drop (utf8_len b), input.take (utf8_len b))

/-- Model of the fixed one-byte tag parsers of src/syntax/combinator.rs
(l_bracket_token, hash_token, r_bracket_token and the like): match the
given byte at the front of the input and return a token of the bound kind
holding the consumed text. -/
def tag_byte (b : Nat) (k : SyntaxKind) (input : List Nat) :
    Option (List Nat × GreenElement) :=
  match input with
  | c :: cs => if c = b then some (cs, .token k [b]) else none
  | [] => none

/-- Model of headline_priority_node from src/syntax/headline.rs: the tuple
of a left bracket, a hash, any single character and a right bracket, then
trailing spaces and tabs. Returns (rest, (HEADLINE_PRIORITY node,
whitespace)). -/
def headline_priority_node (input : List Nat) :
    Option (List Nat × (GreenElement × List Nat)) :=
  match tag_byte 91 .L_BRACKET input with
  | none => none
  | some (r1, lb) =>
    match tag_byte 35 .HASH r1 with
    | none => none
    | some (r2, hash) =>
      match anychar r2 with
      | none => none
      | some (r3, ch) =>
        match tag_byte 93 .R_BRACKET r3 with
        | none => none
        | some (r4, rb) =>
          let s := space0 r4
          some (s.1, (.node .HEADLINE_PRIORITY
            [lb, hash, .token .TEXT ch, rb], s.2))

/-- Uppercase an ASCII letter byte, identity elsewhere. -/
def toUpperByte (b : Nat) : Nat := if 97 ≤ b ∧ b ≤ 122 then b - 32 else b

/-- Trim ASCII whitespace from both ends of a byte list. -/
def trim_ws (ln : List Nat) : List Nat :=
  ((ln.dropWhile isAsciiWs).reverse.dropWhile isAsciiWs).reverse

/-- Modelled from the spec: the planning parser of src/syntax/planning.rs is
not among the provided sources. Spec section 4.6 admits a single line whose
first non-whitespace token is CLOSED:, DEADLINE: or SCHEDULED:, producing a
PLANNING node. The model consumes exactly the first line, kept verbatim in
the node, which preserves the properties the claims rely on: losslessness,
node kind PLANNING, and no HEADLINE or HEADLINE_TAGS content. -/
def planning_node (input : List Nat) : Option (List Nat × GreenElement) :=
  let n := line_len input
  let ln := input.take n
  let word := ln.dropWhile isSpaceTab
  if word.take 7 = [67, 76, 79, 83, 69, 68, 58]
      ∨ word.take 9 = [68, 69, 65, 68, 76, 73, 78, 69, 58]
      ∨ word.take 10 = [83, 67, 72, 69, 68, 85, 76, 69, 68, 58] then
    some (input.drop n, .node .PLANNING [.token .TEXT ln])
  else none

/-- Byte length of the prefix of the input ending with the first line whose
trimmed, uppercased content equals ":END:"; none when no such line exists.
Used only by the spec-modelled property drawer below. -/
def drawer_end_scan : List Nat → Option Nat
  | [] => none
  | b :: bs =>
    let n := line_len (b :: bs)
    if (trim_ws ((b :: bs).take n)).map toUpperByte = [58, 69, 78, 68, 58] then
      some n
    else
      match drawer_end_scan ((b :: bs).drop n) with
      | some m => some (n + m)
      | none => none
termination_by l => l.length
decreasing_by
  simp only [List.length_drop, List.length_cons]
  have hpos : 1 ≤ line_len (b :: bs) := by
    unfold line_len
    split
    · omega
    · simp
  omega

/-- Modelled from the spec: the property drawer parser of
src/syntax/drawer.rs is not among the provided sources. Spec section 4.6
admits a line ":PROPERTIES:" (case-insensitive), then lines up to and
including a ":END:" line, and rejects a drawer with no end line. The model
consumes those lines verbatim into a PROPERTY_DRAWER node, which preserves
the properties the claims rely on: losslessness, node kind, and no HEADLINE
or HEADLINE_TAGS content. -/
def property_drawer_node (input : List Nat) : Option (List Nat × GreenElement) :=
  let n := line_len input
  if (trim_ws (input.take n)).map toUpperByte
      = [58, 80, 82, 79, 80, 69, 82, 84, 73, 69, 83, 58] then
    match drawer_end_scan (input.drop n) with
    | some m => some (input.drop (n + m),
        .node .PROPERTY_DRAWER [.token .TEXT (input.take (n + m))])
    | none => none
  else none

/-- Generic model of the source pattern of an optional sub-parser followed
by push_opt: run the parser, push its node and advance on success, keep the
state on failure. -/
def opt_push (p : List Nat → Option (List Nat × GreenElement))
    (input : List Nat) (b : NodeBuilder) : List Nat × NodeBuilder :=
  match p input with
  | some (i, e) => (i, b.push e)
  | none => (input, b)

/-- Model of the optional keyword step of headline_node_base. -/
def opt_push_keyword (c : ParseConfig) (input : List Nat) (b : NodeBuilder) :
    List Nat × NodeBuilder :=
  match headline_keyword_token c input with
  | some (i, kw, w) => (i, (b.push kw).ws w)
  | none => (input, b)

/-- Model of the optional priority step of headline_node_base. -/
def opt_push_priority (input : List Nat) (b : NodeBuilder) :
    List Nat × NodeBuilder :=
  match headline_priority_node input with
  | some (i, pr, w) => (i, (b.push pr).ws w)
  | none => (input, b)

/-- Model of the optional tags step of headline_node_base: on success the
part before the tag region becomes the title, otherwise the whole content
does. -/
def opt_tags (content : List Nat) : List Nat × Option GreenElement :=
  match headline_tags_node content with
  | some (t, tg) => (t, some tg)
  | none => (content, none)

/-- Model of the conditional title push of headline_node_base: an empty
title after peeling tags produces no HEADLINE_TITLE node. -/
def push_title (title : List Nat) (b : NodeBuilder) : NodeBuilder :=
  if title.isEmpty then b
  else b.push (.node .HEADLINE_TITLE (object_nodes title))

mutual

/-- Model of headline_node_base together with the lossless wrapper
headline_node of src/syntax/headline.rs: stars, optional whitespace,
optional keyword, optional priority, line split, optional tags, title
objects, early return when the line ends at end of input, then optional
planning, property drawer and section, then the child headline loop. The
source recursion consumes at least one byte per nested call; the model
makes this explicit with a fuel argument decremented at every nested call,
and the wrapper below supplies fuel exceeding any possible call depth. -/
def headlineNodeF (c : ParseConfig) : Nat → List Nat → Option (List Nat × GreenElement)
  | 0, _ => none
  | fuel + 1, input =>
    match headline_stars input with
    | none => none
    | some (input1, stars) =>
      let b0 := (NodeBuilder.new).token .HEADLINE_STARS stars
      let s1 := space0 input1
      let b1 := b0.ws s1.2
      let s2 := opt_push_keyword c s1.1 b1
      let s3 := opt_push_priority s2.1 s2.2
      match trim_line_end s3.1 with
      | none => none
      | some (input5, title_and_tags, ws2, nl) =>
        let tt := opt_tags title_and_tags
        let b5 := push_title tt.1 s3.2
        let b6 := ((b5.push_opt tt.2).ws ws2).nl nl
        if nl.isEmpty then some (input5, b6.finish .HEADLINE)
        else
          let s4 := opt_push planning_node input5 b6
          let s5 := opt_push property_drawer_node s4.1 s4.2
          let s6 := opt_push section_node s5.1 s5.2
          match headlineChildrenF c fuel stars.length s6.1 with
          | none => none
          | some (input9, hs) =>
            some (input9, .node .HEADLINE (s6.2.children ++ hs))

/-- Model of the child loop at the end of headline_node_base: while input
remains and the next star run is longer than the current level, parse a
child headline and append it; stop otherwise. -/
def headlineChildrenF (c : ParseConfig) :
    Nat → Nat → List Nat → Option (List Nat × List GreenElement)
  | 0, _, _ => none
  | fuel + 1, level, i =>
    if i.isEmpty then some (i, [])
    else
      let next := (i.takeWhile (fun b => b = 42)).length
      if next ≤ level then some (i, [])
      else
        match headlineNodeF c fuel i with
        | none => none
        | some (i2, h) =>
          match headlineChildrenF c fuel level i2 with
          | none => none
          | some (i3, hs) => some (i3, h :: hs)

end

/-- Model of headline_node of src/syntax/headline.rs, with a fuel bound
that dominates the call depth: every nested call of the recursion follows
the consumption of at least one byte, and the two mutually recursive
functions alternate, so twice the input length plus two suffices. -/
def headline_node (c : ParseConfig) (input : List Nat) :
    Option (List Nat × GreenElement) :=
  headlineNodeF c (2 * input.length + 2) input

/-- Well-formedness of a TEXT token with respect to the tag alphabet; any
other element is unconstrained. -/
def textTagOk : GreenElement → Prop
  | .token .TEXT t => ∀ b ∈ t, isTagByte b = true
  | _ => True

/-- Claim predicate for C5: everywhere in the tree, the direct children of a
HEADLINE_TAGS node hold only TEXT tokens over the tag alphabet. -/
inductive TagsOk : GreenElement → Prop where
  | token : ∀ k t, TagsOk (.token k t)
  | node : ∀ k cs, (k = .HEADLINE_TAGS → ∀ e ∈ cs, textTagOk e) →
      (∀ e ∈ cs, TagsOk e) → TagsOk (.node k cs)

/-- Well-formedness of one direct child of a HEADLINE node other than the
nested child headlines: its kind is not HEADLINE, it satisfies the tag
alphabet invariant, and it is not a zero-length WHITESPACE or NEW_LINE
token. -/
def GoodElem (e : GreenElement) : Prop :=
  kindOf e ≠ .HEADLINE ∧ TagsOk e ∧
    e ≠ .token .WHITESPACE [] ∧ e ≠ .token .NEW_LINE []

/-- Flattened text of an optional element. -/
def optFlat : Option GreenElement → List Nat
  | some e => flatten e
  | none => []

/-- Model of Headline::stars of src/ast via rowan support::token: the text
of the first HEADLINE_STARS token among the direct children. -/
def headline_stars_token (e : GreenElement) : Option (List Nat) :=
  (elemChildren e).findSome? fun ch =>
    match ch with
    | .token .HEADLINE_STARS t => some t
    | _ => none

/-- Model of Headline::level from src/ast/headline.rs: the length of the
stars token. -/
def headline_level (e : GreenElement) : Option Nat :=
  (headline_stars_token e).map List.length

/-- Invariant of a successful headline parse: the result is a HEADLINE node
whose first child is the HEADLINE_STARS token holding the leading star run
of the input; its flattened text plus the remaining input is the input; the
star run is nonempty; every direct child of kind HEADLINE is a deeper
headline; the tag alphabet invariant holds everywhere; and no direct child
is a zero-length WHITESPACE or NEW_LINE token. -/
def NodeInv (input rest : List Nat) (t : GreenElement) : Prop :=
  (∃ cs, t = .node .HEADLINE (.token .HEADLINE_STARS (starRun input) :: cs)) ∧
  flatten t ++ rest = input ∧
  0 < (starRun input).length ∧
  (∀ e ∈ elemChildren t, kindOf e = .HEADLINE →
    ∃ le, headline_level e = some le ∧ (starRun input).length < le) ∧
  TagsOk t ∧
  (∀ e ∈ elemChildren t, e ≠ .token .WHITESPACE [] ∧ e ≠ .token .NEW_LINE [])

/-- Invariant of the child headline loop: the children flatten to the
consumed slice, and every collected child is a HEADLINE node led by a stars
token strictly longer than the current level, satisfying the tag alphabet
invariant. -/
def ChildrenInv (level : Nat) (input rest : List Nat) (hs : List GreenElement) : Prop :=
  flattens hs ++ rest = input ∧
  ∀ h ∈ hs, TagsOk h ∧ ∃ st cs,
    h = .node .HEADLINE (.token .HEADLINE_STARS st :: cs) ∧ level < st.length

/-- Model of filter_token from src/ast/mod.rs: keep an element only when it
is a token of the given kind, yielding its text. -/
def filter_token (k : SyntaxKind) : GreenElement → Option (List Nat)
  | .token k2 t => if k2 = k then some t else none
  | .node _ _ => none

/-- Model of Timestamp::is_range from src/ast/timestamp.rs: more than two
MINUS tokens among the direct children of the timestamp node. -/
def is_range (children : List GreenElement) : Bool :=
  (children.filterMap (filter_token .MINUS)).length > 2

/-- Model of the selection children_with_tokens().skip_while(kind is not
the mark).nth(1) of src/ast/timestamp.rs: the element right after the first
child of the given kind, if any. -/
def after_first (k : SyntaxKind) (cs : List GreenElement) : Option GreenElement :=
  (cs.dropWhile (fun e => kindOf e ≠ k))[1]?

/-- Model of u32 parsing in Rust (u32::from_str): an optional leading plus
sign, then at least one ASCII digit, with the value below 2 to the 32;
anything else, overflow included, fails. -/
def parse_u32 (t : List Nat) : Option Nat :=
  let digits := match t with
    | 43 :: rest => rest
    | _ => t
  if digits = [] then none
  else if digits.all (fun ch => 48 ≤ ch && ch ≤ 57) then
    let v := digits.foldl (fun acc ch => acc * 10 + (ch - 48)) 0
    if v < 4294967296 then some v else none
  else none

/-- Model of Timestamp::repeater_value from src/ast/timestamp.rs, release
semantics (the debug assertion on the token kind is compiled out): the
element after the first TIMESTAMP_REPEATER_MARK, when it is a token whose
text parses as a 32-bit unsigned integer. -/
def repeater_value (cs : List GreenElement) : Option Nat :=
  (after_first .TIMESTAMP_REPEATER_MARK cs).bind fun e =>
    match e with
    | .token _ t => parse_u32 t
    | .node _ _ => none

/-- Model of Timestamp::warning_value from src/ast/timestamp.rs, release
semantics. -/
def warning_value (cs : List GreenElement) : Option Nat :=
  (after_first .TIMESTAMP_DELAY_MARK cs).bind fun e =>
    match e with
    | .token _ t => parse_u32 t
    | .node _ _ => none

theorem flattens_append (xs ys : List GreenElement) :
    flattens (xs ++ ys) = flattens xs ++ flattens ys := by
  induction xs with
  | nil => simp [flattens]
  | cons e es ih => simp [flattens, ih]

theorem space0_append (input : List Nat) :
    (space0 input).2 ++ (space0 input).1 = input := by
  simp [space0, List.takeWhile_append_dropWhile]

theorem flattens_builder_ws (b : NodeBuilder) (i : List Nat) :
    flattens (NodeBuilder.ws b i).children = flattens b.children ++ i := by
  by_cases h : i.isEmpty
  · simp_all [NodeBuilder.ws, List.isEmpty_iff]
  · simp [NodeBuilder.ws, h, flattens_append, flattens, flatten]

theorem flattens_builder_nl (b : NodeBuilder) (i : List Nat) :
    flattens (NodeBuilder.nl b i).children = flattens b.children ++ i := by
  by_cases h : i.isEmpty
  · simp_all [NodeBuilder.nl, List.isEmpty_iff]
  · simp [NodeBuilder.nl, h, flattens_append, flattens, flatten]

theorem flattens_builder_push (b : NodeBuilder) (e : GreenElement) :
    flattens (NodeBuilder.push b e).children = flattens b.children ++ flatten e := by
  simp [NodeBuilder.push, flattens_append, flattens]

theorem flattens_builder_token (b : NodeBuilder) (k : SyntaxKind) (i : List Nat) :
    flattens (NodeBuilder.token b k i).children = flattens b.children ++ i := by
  simp [NodeBuilder.token, flattens_append, flattens, flatten]

theorem take_takeWhile_length (p : Nat → Bool) (l : List Nat) :
    l.take (l.takeWhile p).length = l.takeWhile p := by
  induction l with
  | nil => simp
  | cons b bs ih =>
    by_cases h : p b
    · simp [List.takeWhile_cons, h, ih]
    · simp [List.takeWhile_cons, h]

theorem starRun_take (input : List Nat) :
    input.take (starRun input).length = starRun input :=
  take_takeWhile_length _ input

theorem headline_stars_eq_some (input rest stars : List Nat)
    (h : headline_stars input = some (rest, stars)) :
    stars = starRun input ∧ rest = input.drop (starRun input).length ∧
      0 < (starRun input).length := by
  simp only [headline_stars, starRun] at *
  set tw := input.takeWhile (fun b => b = 42) with htw
  have htake : input.take tw.length = tw := take_takeWhile_length _ input
  by_cases h0 : tw.length = 0
  · rw [if_pos h0] at h; exact absurd h (by simp)
  · rw [if_neg h0] at h
    by_cases h1 : input.length = tw.length
    · rw [if_pos h1, Option.some.injEq, Prod.mk.injEq] at h
      exact ⟨h.2.symm.trans htake, h.1.symm, Nat.pos_of_ne_zero h0⟩
    · rw [if_neg h1] at h
      by_cases h2 : input[tw.length]? = some 10 ∨ input[tw.length]? = some 13 ∨
          input[tw.length]? = some 32
      · rw [if_pos h2, Option.some.injEq, Prod.mk.injEq] at h
        exact ⟨h.2.symm.trans htake, h.1.symm, Nat.pos_of_ne_zero h0⟩
      · rw [if_neg h2] at h; exact absurd h (by simp)

/-- Claim C4: headline_stars succeeds on an input exactly when the input
begins with at least one star byte and either the star run reaches the end of
the input or the byte right after the run is a space, a carriage return or a
line feed; on success it consumes exactly the star run. In particular a star
run followed by a tab or by any other byte is rejected. -/
theorem headline_stars_succeeds_iff (input : List Nat) :
    (∃ rest stars, headline_stars input = some (rest, stars) ∧
        stars = starRun input ∧ rest = input.drop (starRun input).length) ↔
    (0 < (starRun input).length ∧
      ((starRun input).length = input.length ∨
        input[(starRun input).length]? = some 32 ∨
        input[(starRun input).length]? = some 13 ∨
        input[(starRun input).length]? = some 10)) := by
  simp only [starRun]
  set tw := input.takeWhile (fun b => b = 42) with htw
  have htake : input.take tw.length = tw := take_takeWhile_length _ input
  constructor
  · rintro ⟨rest, stars, h, -, -⟩
    obtain ⟨h1, h2, h3⟩ := headline_stars_eq_some input rest stars h
    simp only [starRun, ← htw] at h3
    refine ⟨h3, ?_⟩
    simp only [headline_stars, ← htw] at h
    rw [if_neg (by omega)] at h
    by_cases hl : input.length = tw.length
    · exact Or.inl hl.symm
    · rw [if_neg hl] at h
      by_cases hc : input[tw.length]? = some 10 ∨ input[tw.length]? = some 13 ∨
          input[tw.length]? = some 32
      · tauto
      · rw [if_neg hc] at h; exact absurd h (by simp)
  · rintro ⟨hpos, hcond⟩
    refine ⟨input.drop tw.length, tw, ?_, rfl, rfl⟩
    simp only [headline_stars, ← htw]
    rw [if_neg (by omega)]
    by_cases hl : input.length = tw.length
    · rw [if_pos hl, htake]
    · rcases hcond with h | h | h | h
      · omega
      all_goals rw [if_neg hl, if_pos (by tauto), htake]

/-- Witness for C4 at the concrete input "** a". -/
theorem headline_stars_succeeds_iff_witness :
    ∃ rest stars, headline_stars [42, 42, 32, 97] = some (rest, stars) ∧
        stars = starRun [42, 42, 32, 97] ∧
        rest = List.drop (starRun [42, 42, 32, 97]).length [42, 42, 32, 97] :=
  (headline_stars_succeeds_iff [42, 42, 32, 97]).mpr (by decide)

theorem rposition_eq_some (p : Nat → Bool) (l : List Nat) (j : Nat)
    (h : rposition p l = some j) :
    j < l.length ∧ ∃ b, l[j]? = some b ∧ p b = true := by
  unfold rposition at h
  rw [Option.map_eq_some'] at h
  obtain ⟨jr, hfind, hj⟩ := h
  rw [List.findIdx?_eq_some_iff_getElem] at hfind
  obtain ⟨hlt, hp, -⟩ := hfind
  have hlt' : jr < l.length := by simpa using hlt
  have hrev : l.reverse[jr]? = l[l.length - 1 - jr]? :=
    List.getElem?_reverse (by simpa using hlt)
  refine ⟨by omega, l.reverse[jr], ?_, hp⟩
  rw [← hj, ← hrev]
  exact List.getElem?_eq_getElem hlt

/-- Claim C6 (amended): trim_line_end always succeeds; the three components
concatenated with the remaining input give back the input; the whitespace
component holds only spaces and tabs; the contents component holds no line
feed and does not end in an ASCII whitespace byte; and the line terminator
component is empty only when the consumed line ends at the end of input.
The terminator is not always one of the three listed sequences, see the
counterexample. -/
theorem trim_line_end_spec (input : List Nat) :
    (trim_line_end input).isSome = true ∧
    (∀ rest contents ws nl,
      trim_line_end input = some (rest, (contents, ws, nl)) →
      contents ++ ws ++ nl ++ rest = input ∧
      (∀ b ∈ ws, isSpaceTab b = true) ∧
      (∀ b ∈ contents, b ≠ 10) ∧
      (contents.getLast? = none ∨
        ∃ b, contents.getLast? = some b ∧ isAsciiWs b = false) ∧
      (nl = [] → rest = [])) := by
  refine ⟨by simp [trim_line_end], ?_⟩
  intro rest contents ws nl h
  simp only [trim_line_end, Option.some.injEq, Prod.mk.injEq] at h
  obtain ⟨hrest, hcontents, hws, hnl⟩ := h
  -- names for the intermediate values of the definition
  set n := (match input.findIdx? (fun b => b = 10) with
    | some i => i + 1
    | none => input.length) with hn
  set ln := input.take n with hln
  set k := (match rposition (fun u => ! isAsciiWs u) ln with
    | some i => i + 1
    | none => 0) with hk
  have hsplit : contents ++ ws ++ nl ++ rest = input := by
    rw [← hcontents, ← hws, ← hnl, ← hrest]
    simp only [space0, List.append_assoc]
    rw [← List.append_assoc (List.takeWhile isSpaceTab (ln.drop k)),
      List.takeWhile_append_dropWhile, ← List.append_assoc, List.take_append_drop,
      hln, List.take_append_drop]
  refine ⟨hsplit, ?_, ?_, ?_, ?_⟩
  · intro b hb
    rw [← hws] at hb
    exact List.mem_takeWhile_imp hb
  · intro b hb hb10
    subst hb10
    rw [← hcontents] at hb
    have hbln : (10 : Nat) ∈ ln := (List.take_sublist _ _).mem hb
    have hbinput : (10 : Nat) ∈ input := by
      rw [hln] at hbln
      exact (List.take_sublist _ _).mem hbln
    cases hfi : input.findIdx? (fun b => b = 10) with
    | none =>
      rw [List.findIdx?_eq_none_iff] at hfi
      have := hfi 10 hbinput
      simp at this
    | some i =>
      -- the first line feed of the input sits at index i, contents stop before it
      have hfi' := hfi
      rw [List.findIdx?_eq_some_iff_getElem] at hfi'
      obtain ⟨hilt, hpi, hmin⟩ := hfi'
      have hn' : n = i + 1 := by rw [hn, hfi]
      -- k is at most i
      have hkle : k ≤ i := by
        cases hrp : rposition (fun u => ! isAsciiWs u) ln with
        | none =>
          rw [hk, hrp]
          exact Nat.zero_le i
        | some j =>
          obtain ⟨hjlt, b, hbj, hpb⟩ := rposition_eq_some _ _ _ hrp
          have hlnlen : ln.length ≤ i + 1 := by
            rw [hln, hn']; simp
          have hji : j ≠ i := by
            intro hji
            rw [hji] at hbj
            have heq : ln[i]? = input[i]? := by
              rw [hln]
              exact List.getElem?_take_of_lt (by omega)
            rw [heq, List.getElem?_eq_getElem (by omega)] at hbj
            have hbi : input[i] = b := by simpa using hbj
            have h10 : input[i] = 10 := by simpa using hpi
            rw [← hbi, h10] at hpb
            simp [isAsciiWs] at hpb
          rw [hk, hrp]
          show j + 1 ≤ i
          omega
      -- every byte of contents sits strictly before index i
      rw [List.mem_iff_getElem?] at hb
      obtain ⟨m, hm⟩ := hb
      have hmk : m < k := by
        by_contra hge
        rw [List.getElem?_take_eq_none (by omega)] at hm
        exact Option.noConfusion hm
      have hminput : input[m]? = some 10 := by
        rw [← hm, hln]
        rw [List.getElem?_take_of_lt hmk, List.getElem?_take_of_lt (by omega)]
      have hcontra := hmin m (by omega)
      rw [List.getElem?_eq_getElem (by omega)] at hminput
      have : input[m] = 10 := by simpa using hminput
      simp_all
  · cases hrp : rposition (fun u => ! isAsciiWs u) ln with
    | none =>
      left
      rw [← hcontents, hk, hrp]
      simp
    | some j =>
      right
      obtain ⟨hjlt, b, hbj, hpb⟩ := rposition_eq_some _ _ _ hrp
      refine ⟨b, ?_, by simpa using hpb⟩
      rw [← hcontents, hk, hrp]
      show (ln.take (j + 1)).getLast? = some b
      have hlen : (ln.take (j + 1)).length = j + 1 := by
        simp; omega
      rw [List.getLast?_eq_getElem?, hlen]
      simpa [List.getElem?_take_of_succ] using hbj
  · intro hnlnil
    by_contra hrestne
    rw [← hrest] at hrestne
    have hnlen : n < input.length := by
      by_contra hge
      push_neg at hge
      exact hrestne (List.drop_eq_nil_of_le hge)
    cases hfi : input.findIdx? (fun b => b = 10) with
    | none =>
      rw [hn, hfi] at hnlen
      exact Nat.lt_irrefl _ hnlen
    | some i =>
      have hfi' := hfi
      rw [List.findIdx?_eq_some_iff_getElem] at hfi'
      obtain ⟨hilt, hpi, hmin⟩ := hfi'
      have hn' : n = i + 1 := by rw [hn, hfi]
      have hlni : ln[i]? = some 10 := by
        rw [hln, List.getElem?_take_of_lt (by omega),
          List.getElem?_eq_getElem hilt]
        simpa using hpi
      have hkle : k ≤ i := by
        cases hrp : rposition (fun u => ! isAsciiWs u) ln with
        | none =>
          rw [hk, hrp]
          exact Nat.zero_le i
        | some j =>
          obtain ⟨hjlt, b, hbj, hpb⟩ := rposition_eq_some _ _ _ hrp
          have hlnlen : ln.length ≤ i + 1 := by rw [hln, hn']; simp
          have hji : j ≠ i := by
            intro hji
            rw [hji, hlni] at hbj
            have hb10 : 10 = b := by simpa using hbj
            rw [← hb10] at hpb
            simp [isAsciiWs] at hpb
          rw [hk, hrp]
          show j + 1 ≤ i
          omega
      have h10mem : (10 : Nat) ∈ ln.drop k := by
        rw [List.mem_iff_getElem?]
        refine ⟨i - k, ?_⟩
        rw [List.getElem?_drop, show k + (i - k) = i by omega]
        exact hlni
      rw [← hnl] at hnlnil
      simp only [space0] at hnlnil
      rw [List.dropWhile_eq_nil_iff] at hnlnil
      have := hnlnil 10 h10mem
      simp [isSpaceTab] at this

/-- Witness for the amended C6 at the concrete input "abc \r\nrest". -/
theorem trim_line_end_spec_witness :
    [97, 98, 99] ++ [32] ++ [13, 10] ++ [114] = [97, 98, 99, 32, 13, 10, 114] ∧
      (([13, 10] : List Nat) = [] → ([114] : List Nat) = []) := by
  have h := (trim_line_end_spec [97, 98, 99, 32, 13, 10, 114]).2
    [114] [97, 98, 99] [32] [13, 10] (by decide)
  exact ⟨h.1, h.2.2.2.2⟩

/-- Counterexample for claim C6 as stated: on the input consisting of the
byte of "a" followed by two carriage returns, trim_line_end returns the
line terminator component [13, 13], which is none of the sequences "\n",
"\r\n", "\r", and which is nonempty even though the line ends at the end
of input. -/
theorem trim_line_end_claim_counterexample :
    trim_line_end [97, 13, 13] = some ([], ([97], [], [13, 13])) ∧
      ([13, 13] : List Nat) ≠ [10] ∧ ([13, 13] : List Nat) ≠ [13, 10] ∧
      ([13, 13] : List Nat) ≠ [13] ∧ ([13, 13] : List Nat) ≠ [] := by
  refine ⟨by decide, by decide, by decide, by decide, by decide⟩

theorem positions_mem (p : Nat → Bool) :
    ∀ (l : List Nat) (x : Nat), x ∈ positions p l →
      ∃ b, l[x]? = some b ∧ p b = true := by
  intro l
  induction l with
  | nil => intro x hx; simp [positions] at hx
  | cons b bs ih =>
    intro x hx
    simp only [positions] at hx
    by_cases hp : p b
    · rw [if_pos hp] at hx
      rcases List.mem_cons.mp hx with rfl | hx'
      · exact ⟨b, by simp, hp⟩
      · obtain ⟨z, hz, rfl⟩ := List.mem_map.mp hx'
        obtain ⟨c, hc, hpc⟩ := ih z hz
        exact ⟨c, by simpa using hc, hpc⟩
    · rw [if_neg hp] at hx
      obtain ⟨z, hz, rfl⟩ := List.mem_map.mp hx
      obtain ⟨c, hc, hpc⟩ := ih z hz
      exact ⟨c, by simpa using hc, hpc⟩

theorem mem_positions (p : Nat → Bool) :
    ∀ (l : List Nat) (x b : Nat), l[x]? = some b → p b = true →
      x ∈ positions p l := by
  intro l
  induction l with
  | nil => intro x b hx _; simp at hx
  | cons c cs ih =>
    intro x b hx hp
    cases x with
    | zero =>
      simp only [List.getElem?_cons_zero, Option.some.injEq] at hx
      subst hx
      simp [positions, hp]
    | succ y =>
      simp only [List.getElem?_cons_succ] at hx
      have hy := ih y b hx hp
      by_cases hpc : p c
      · simp only [positions, if_pos hpc]
        exact List.mem_cons_of_mem _ (List.mem_map.mpr ⟨y, hy, rfl⟩)
      · simp only [positions, if_neg hpc]
        exact List.mem_map.mpr ⟨y, hy, rfl⟩

theorem positions_chain (p : Nat → Bool) (l : List Nat) :
    List.Chain' (· < ·) (positions p l) := by
  induction l with
  | nil => simp [positions]
  | cons b bs ih =>
    have hmap : List.Chain' (· < ·) ((positions p bs).map (· + 1)) := by
      rw [List.chain'_map]
      exact ih.imp (by intro a c h; omega)
    simp only [positions]
    split
    · rw [List.chain'_cons']
      refine ⟨?_, hmap⟩
      intro y hy
      cases hpos : (positions p bs).map (· + 1) with
      | nil => rw [hpos] at hy; simp at hy
      | cons a t =>
        rw [hpos] at hy
        simp only [List.head?_cons, Option.mem_def, Option.some.injEq] at hy
        subst hy
        have ha : a ∈ (positions p bs).map (· + 1) := by
          rw [hpos]; exact List.mem_cons_self _ _
        obtain ⟨z, -, rfl⟩ := List.mem_map.mp ha
        omega
    · exact hmap

theorem positions_lt (p : Nat → Bool) (l : List Nat) (x : Nat)
    (hx : x ∈ positions p l) : x < l.length := by
  obtain ⟨b, hb, -⟩ := positions_mem p l x hx
  obtain ⟨h, -⟩ := List.getElem?_eq_some_iff.mp hb
  exact h

theorem positions_reverse_head (p : Nat → Bool) (l : List Nat) (b : Nat)
    (hlast : l.getLast? = some b) (hp : p b = true) :
    ∃ tail, (positions p l).reverse = (l.length - 1) :: tail := by
  have hne : l ≠ [] := by intro h; subst h; simp at hlast
  have hlen : 0 < l.length := List.length_pos.mpr hne
  have hmem : (l.length - 1) ∈ positions p l := by
    apply mem_positions p l _ b _ hp
    rw [← List.getLast?_eq_getElem?]; exact hlast
  cases hrev : (positions p l).reverse with
  | nil =>
    rw [← List.mem_reverse, hrev] at hmem
    simp at hmem
  | cons h t =>
    refine ⟨t, ?_⟩
    have hhmem : h ∈ positions p l := by
      rw [← List.mem_reverse, hrev]; exact List.mem_cons_self _ _
    have hhlt : h < l.length := positions_lt p l h hhmem
    have hchain : List.Chain' (· > ·) ((positions p l).reverse) := by
      rw [List.chain'_reverse]
      exact positions_chain p l
    rw [hrev, List.chain'_iff_pairwise] at hchain
    have hall : ∀ x ∈ t, x < h := (List.pairwise_cons.mp hchain).1
    rw [← List.mem_reverse, hrev] at hmem
    rcases List.mem_cons.mp hmem with heq | hmem'
    · rw [← heq]
    · have := hall _ hmem'
      omega

theorem drop_colon_split (bytes : List Nat) (ii i : Nat)
    (hcolon : bytes[ii]? = some 58) (hlt : ii < i) (hle : i ≤ bytes.length) :
    bytes.drop ii = 58 :: ((bytes.drop (ii + 1)).take (i - (ii + 1)) ++ bytes.drop i) := by
  have hii : ii < bytes.length := by omega
  rw [List.drop_eq_getElem_cons hii]
  have hb : bytes[ii] = 58 := by
    rw [List.getElem?_eq_getElem hii] at hcolon
    simpa using hcolon
  rw [hb]
  congr 1
  have h1 := List.take_append_drop (i - (ii + 1)) (bytes.drop (ii + 1))
  rw [List.drop_drop, show ii + 1 + (i - (ii + 1)) = i by omega] at h1
  exact h1.symm

theorem tags_scan_spec (bytes : List Nat) :
    ∀ (ps : List Nat) (i : Nat) (cnbw : Bool) (children : List GreenElement),
      (∀ x ∈ ps, bytes[x]? = some 58) →
      List.Chain' (· > ·) (i :: ps) →
      i < bytes.length →
      flattens children.reverse = bytes.drop i →
      (∀ e ∈ children, tagTokOk e) →
      flattens (tags_scan bytes ps i cnbw children).2.reverse
          = bytes.drop (tags_scan bytes ps i cnbw children).1 ∧
        (tags_scan bytes ps i cnbw children).1 < bytes.length ∧
        (∀ e ∈ (tags_scan bytes ps i cnbw children).2, tagTokOk e) ∧
        children.length ≤ (tags_scan bytes ps i cnbw children).2.length := by
  intro ps
  induction ps with
  | nil =>
    intro i cnbw children _ _ hlt hflat hok
    simp only [tags_scan]
    exact ⟨hflat, hlt, hok, le_refl _⟩
  | cons ii rest ih =>
    intro i cnbw children hcolon hchain hlt hflat hok
    have hii_colon : bytes[ii]? = some 58 := hcolon ii (List.mem_cons_self _ _)
    have hii_lt_i : ii < i := (List.chain'_cons.mp hchain).1
    have hchain' : List.Chain' (· > ·) (ii :: rest) := (List.chain'_cons.mp hchain).2
    have hcolon' : ∀ x ∈ rest, bytes[x]? = some 58 :=
      fun x hx => hcolon x (List.mem_cons_of_mem _ hx)
    have hii_lt : ii < bytes.length := by omega
    have hsplitid : bytes.drop ii
        = 58 :: ((bytes.drop (ii + 1)).take (i - (ii + 1)) ++ bytes.drop i) :=
      drop_colon_split bytes ii i hii_colon hii_lt_i (le_of_lt hlt)
    simp only [tags_scan]
    by_cases h1 : ((bytes.drop (ii + 1)).take (i - (ii + 1))).isEmpty
    · rw [if_pos h1]
      have hitem_nil : (bytes.drop (ii + 1)).take (i - (ii + 1)) = [] :=
        List.isEmpty_iff.mp h1
      have hflat' : flattens ((children ++ [GreenElement.token .COLON [58]]).reverse)
          = bytes.drop ii := by
        rw [hsplitid, hitem_nil]
        simp only [List.reverse_append, List.reverse_cons, List.reverse_nil,
          List.nil_append, List.cons_append, flattens, flatten]
        rw [hflat]
      have hok' : ∀ e ∈ children ++ [GreenElement.token .COLON [58]], tagTokOk e := by
        intro e he
        rcases List.mem_append.mp he with he | he
        · exact hok e he
        · rcases List.mem_singleton.mp he with rfl
          exact rfl
      have := ih ii false (children ++ [.token .COLON [58]]) hcolon' hchain' hii_lt hflat' hok'
      refine ⟨this.1, this.2.1, this.2.2.1, ?_⟩
      calc children.length ≤ (children ++ [GreenElement.token .COLON [58]]).length := by
            simp
        _ ≤ _ := this.2.2.2
    · rw [if_neg h1]
      by_cases h2 : ((bytes.drop (ii + 1)).take (i - (ii + 1))).all isTagByte
      · rw [if_pos h2]
        have hflat' : flattens (children ++
            [GreenElement.token .TEXT ((bytes.drop (ii + 1)).take (i - (ii + 1))),
              GreenElement.token .COLON [58]]).reverse = bytes.drop ii := by
          rw [hsplitid]
          simp only [List.reverse_append, List.reverse_cons, List.reverse_nil,
            List.nil_append, List.cons_append, flattens, flatten]
          rw [hflat]
        have hok' : ∀ e ∈ children ++
            [GreenElement.token .TEXT ((bytes.drop (ii + 1)).take (i - (ii + 1))),
              GreenElement.token .COLON [58]], tagTokOk e := by
          intro e he
          rcases List.mem_append.mp he with he | he
          · exact hok e he
          · rcases List.mem_cons.mp he with rfl | he
            · refine ⟨by simpa using h1, ?_⟩
              intro b hb
              exact List.all_eq_true.mp h2 b hb
            · rcases List.mem_singleton.mp he with rfl
              exact rfl
        have := ih ii false _ hcolon' hchain' hii_lt hflat' hok'
        refine ⟨this.1, this.2.1, this.2.2.1, ?_⟩
        calc children.length ≤ (children ++
              [GreenElement.token .TEXT ((bytes.drop (ii + 1)).take (i - (ii + 1))),
                GreenElement.token .COLON [58]]).length := by simp
          _ ≤ _ := this.2.2.2
      · rw [if_neg h2]
        by_cases h3 : ((bytes.drop (ii + 1)).take (i - (ii + 1))).all isSpaceTab && !cnbw
        · rw [if_pos h3]
          have hflat' : flattens (children ++
              [GreenElement.token .WHITESPACE ((bytes.drop (ii + 1)).take (i - (ii + 1))),
                GreenElement.token .COLON [58]]).reverse = bytes.drop ii := by
            rw [hsplitid]
            simp only [List.reverse_append, List.reverse_cons, List.reverse_nil,
              List.nil_append, List.cons_append, flattens, flatten]
            rw [hflat]
          have hok' : ∀ e ∈ children ++
              [GreenElement.token .WHITESPACE ((bytes.drop (ii + 1)).take (i - (ii + 1))),
                GreenElement.token .COLON [58]], tagTokOk e := by
            intro e he
            rcases List.mem_append.mp he with he | he
            · exact hok e he
            · rcases List.mem_cons.mp he with rfl | he
              · refine ⟨by simpa using h1, ?_⟩
                intro b hb
                have h3' := h3
                rw [Bool.and_eq_true] at h3'
                exact List.all_eq_true.mp h3'.1 b hb
              · rcases List.mem_singleton.mp he with rfl
                exact rfl
          have := ih ii true _ hcolon' hchain' hii_lt hflat' hok'
          refine ⟨this.1, this.2.1, this.2.2.1, ?_⟩
          calc children.length ≤ (children ++
                [GreenElement.token .WHITESPACE ((bytes.drop (ii + 1)).take (i - (ii + 1))),
                  GreenElement.token .COLON [58]]).length := by simp
            _ ≤ _ := this.2.2.2
        · rw [if_neg h3]
          exact ⟨hflat, hlt, hok, le_refl _⟩

theorem drop_length_sub_one (l : List Nat) (b : Nat) (h : l.getLast? = some b) :
    l.drop (l.length - 1) = [b] := by
  have hne : l ≠ [] := by intro hh; subst hh; simp at h
  have hlen : 0 < l.length := List.length_pos.mpr hne
  rw [List.drop_eq_getElem_cons (by omega)]
  have h1 : l[l.length - 1]? = some b := by
    rw [← List.getLast?_eq_getElem?]; exact h
  rw [List.getElem?_eq_getElem (by omega)] at h1
  have h2 : l[l.length - 1] = b := by simpa using h1
  rw [h2, show l.length - 1 + 1 = l.length by omega, List.drop_length]

theorem headline_tags_node_inv (input title : List Nat) (tg : GreenElement)
    (h : headline_tags_node input = some (title, tg)) :
    input.getLast? = some 58 ∧
    ∃ cs i, tg = .node .HEADLINE_TAGS cs ∧ 2 ≤ cs.length ∧
      (∀ e ∈ cs, tagTokOk e) ∧ title = input.take i ∧ i < input.length ∧
      title ++ flattens cs = input ∧
      (i = 0 ∨ input[i - 1]? = some 32 ∨ input[i - 1]? = some 9) := by
  unfold headline_tags_node at h
  by_cases hend : input.getLast? = some 58
  case neg =>
    rw [if_pos (by simpa using hend)] at h
    exact absurd h (by simp)
  case pos =>
    rw [if_neg (by simpa using hend)] at h
    refine ⟨hend, ?_⟩
    obtain ⟨tail, htail⟩ :=
      positions_reverse_head (fun b => b = 58) input 58 hend (by simp)
    have hchain : List.Chain' (· > ·)
        ((input.length - 1) :: ((positions (fun b => b = 58) input).reverse).drop 1) := by
      have hc : List.Chain' (· > ·) ((positions (fun b => b = 58) input).reverse) := by
        rw [List.chain'_reverse]
        exact positions_chain _ input
      rw [htail] at hc
      rw [htail]
      simpa using hc
    have hpscolon : ∀ x ∈ ((positions (fun b => b = 58) input).reverse).drop 1,
        input[x]? = some 58 := by
      intro x hx
      have hx' : x ∈ (positions (fun b => b = 58) input).reverse :=
        List.mem_of_mem_drop hx
      rw [List.mem_reverse] at hx'
      obtain ⟨b, hb, hpb⟩ := positions_mem _ input x hx'
      have hb58 : b = 58 := by simpa using hpb
      rw [hb58] at hb
      exact hb
    have hne : input ≠ [] := by intro hh; subst hh; simp at hend
    have hlenpos : 0 < input.length := List.length_pos.mpr hne
    have hinit_flat : flattens ([GreenElement.token .COLON [58]] : List GreenElement).reverse
        = input.drop (input.length - 1) := by
      rw [drop_length_sub_one input 58 hend]
      simp [flattens, flatten]
    have hinit_ok : ∀ e ∈ ([GreenElement.token .COLON [58]] : List GreenElement),
        tagTokOk e := by
      intro e he
      rcases List.mem_singleton.mp he with rfl
      exact rfl
    have hspec := tags_scan_spec input
      (((positions (fun b => b = 58) input).reverse).drop 1)
      (input.length - 1) true [GreenElement.token .COLON [58]]
      hpscolon hchain (by omega) hinit_flat hinit_ok
    set scanned := tags_scan input
      (((positions (fun b => b = 58) input).reverse).drop 1)
      (input.length - 1) true [GreenElement.token .COLON [58]] with hscanned
    by_cases hg1 : scanned.2.length = 1
    · rw [if_pos hg1] at h
      exact absurd h (by simp)
    · rw [if_neg hg1] at h
      by_cases hg2 : scanned.1 ≠ 0 ∧ input[scanned.1 - 1]? ≠ some 32 ∧
          input[scanned.1 - 1]? ≠ some 9
      · rw [if_pos hg2] at h
        exact absurd h (by simp)
      · rw [if_neg hg2] at h
        rw [Option.some.injEq, Prod.mk.injEq] at h
        obtain ⟨htitle, htg⟩ := h
        refine ⟨scanned.2.reverse, scanned.1, htg.symm, ?_, ?_, htitle.symm,
          hspec.2.1, ?_, ?_⟩
        · have h1 : 1 ≤ scanned.2.length := by
            have := hspec.2.2.2
            simpa using this
          have : scanned.2.reverse.length = scanned.2.length := by simp
          omega
        · intro e he
          rw [List.mem_reverse] at he
          exact hspec.2.2.1 e he
        · rw [← htitle, hspec.1]
          exact List.take_append_drop _ input
        · by_cases hz : scanned.1 = 0
          · exact Or.inl hz
          · by_cases h32 : input[scanned.1 - 1]? = some 32
            · exact Or.inr (Or.inl h32)
            · by_cases h9 : input[scanned.1 - 1]? = some 9
              · exact Or.inr (Or.inr h9)
              · exact absurd ⟨hz, h32, h9⟩ hg2

/-- Claim C3 (amended): headline_tags_node succeeds only if the content
slice ends with a colon byte, the right-to-left scan accepts at least one
colon-delimited group (an allowed-alphabet tag or an empty group, with pure
space-tab groups admitted only after an accepted group), and the recognized
tag region either starts at the beginning of the slice or is immediately
preceded by a space or a tab; when the slice does not end with a colon, the
tag parser fails and headline_node then treats the whole content as title.
An accepted group need not be a tag over the allowed alphabet and the tag
region may start the slice, see the counterexample. -/
theorem headline_tags_node_requirements (input : List Nat) :
    (input.getLast? ≠ some 58 → headline_tags_node input = none) ∧
    (∀ title tg, headline_tags_node input = some (title, tg) →
      input.getLast? = some 58 ∧ 2 ≤ (elemChildren tg).length ∧
      (title = [] ∨ ∃ b, title.getLast? = some b ∧ (b = 32 ∨ b = 9))) := by
  constructor
  · intro hne
    unfold headline_tags_node
    rw [if_pos (by simpa using hne)]
  · intro title tg h
    obtain ⟨hend, cs, i, htg, hlen2, hok, htitle, hilt, hconcat, hcond⟩ :=
      headline_tags_node_inv input title tg h
    refine ⟨hend, by simpa [htg, elemChildren] using hlen2, ?_⟩
    by_cases hi0 : i = 0
    · left
      rw [htitle, hi0]
      simp
    · right
      have hipos : 0 < i := Nat.pos_of_ne_zero hi0
      have hlast : (input.take i).getLast? = input[i - 1]? := by
        have hlen : (input.take i).length = i := by
          simp
          omega
        rw [List.getLast?_eq_getElem?, hlen]
        exact List.getElem?_take_of_lt (by omega)
      rcases hcond with hc | hc | hc
      · exact absurd hc hi0
      · exact ⟨32, by rw [htitle, hlast]; exact hc, Or.inl rfl⟩
      · exact ⟨9, by rw [htitle, hlast]; exact hc, Or.inr rfl⟩

/-- Witness for the amended C3 at the concrete content "a :tag:". -/
theorem headline_tags_node_requirements_witness :
    ([97, 32, 58, 116, 97, 103, 58] : List Nat).getLast? = some 58 ∧
      2 ≤ (elemChildren (.node .HEADLINE_TAGS
        [.token .COLON [58], .token .TEXT [116, 97, 103],
          .token .COLON [58]])).length ∧
      (([97, 32] : List Nat) = [] ∨
        ∃ b, ([97, 32] : List Nat).getLast? = some b ∧ (b = 32 ∨ b = 9)) :=
  (headline_tags_node_requirements [97, 32, 58, 116, 97, 103, 58]).2
    [97, 32] _ (by rfl)

/-- Counterexample for claim C3 as stated: on the slice of two colons,
headline_tags_node succeeds although no tag over the allowed alphabet was
found (the returned node holds two colon tokens and no TEXT token) and no
byte precedes the recognized tag region (the region starts at offset 0, the
returned title part is empty). -/
theorem headline_tags_node_claim_counterexample :
    headline_tags_node [58, 58]
      = some ([], .node .HEADLINE_TAGS
          [.token .COLON [58], .token .COLON [58]]) ∧
      textTokenCount [.token .COLON [58], .token .COLON [58]] = 0 := by
  exact ⟨rfl, rfl⟩

theorem object_nodes_flat (input : List Nat) :
    flattens (object_nodes input) = input := by
  by_cases h : input = []
  · simp [object_nodes, h, flattens]
  · simp [object_nodes, h, flattens, flatten]

theorem element_nodes_flat (input : List Nat) (es : List GreenElement)
    (h : element_nodes input = some es) : flattens es = input := by
  by_cases hh : input = []
  · simp [element_nodes, hh] at h
    subst h
    simp [hh, flattens]
  · simp [element_nodes, hh] at h
    subst h
    simp [flattens, flatten]

theorem section_text_spec (input : List Nat) (rest sec : List Nat)
    (h : section_text input = some (rest, sec)) :
    sec ≠ [] ∧ sec ++ rest = input := by
  unfold section_text at h
  by_cases hnil : input = []
  · rw [if_pos hnil] at h
    exact absurd h (by simp)
  · rw [if_neg hnil] at h
    cases hfind : (line_starts input).find?
        (fun i => (headline_stars (input.drop i)).isSome) with
    | none =>
      rw [hfind] at h
      have h' : some (([] : List Nat), input) = some (rest, sec) := h
      rw [Option.some.injEq, Prod.mk.injEq] at h'
      obtain ⟨h1, h2⟩ := h'
      rw [← h1, ← h2]
      exact ⟨hnil, by simp⟩
    | some i =>
      rw [hfind] at h
      have h' : (if input.take i = [] then none
          else some (input.drop i, input.take i)) = some (rest, sec) := h
      by_cases htake : input.take i = []
      · rw [if_pos htake] at h'
        exact absurd h' (by simp)
      · rw [if_neg htake] at h'
        rw [Option.some.injEq, Prod.mk.injEq] at h'
        obtain ⟨h1, h2⟩ := h'
        rw [← h1, ← h2]
        exact ⟨htake, List.take_append_drop i input⟩

theorem section_node_spec (input : List Nat) (rest : List Nat) (n : GreenElement)
    (h : section_node input = some (rest, n)) :
    kindOf n = .SECTION ∧ flatten n ≠ [] ∧ flatten n ++ rest = input := by
  unfold section_node at h
  cases hst : section_text input with
  | none => rw [hst] at h; exact absurd h (by simp)
  | some p =>
    obtain ⟨rest', sec⟩ := p
    rw [hst] at h
    have h' : (match element_nodes sec with
        | none => none
        | some es => some (rest', GreenElement.node .SECTION es)) = some (rest, n) := h
    cases hel : element_nodes sec with
    | none =>
      rw [hel] at h'
      exact absurd h' (by simp)
    | some es =>
      rw [hel] at h'
      have h'' : some (rest', GreenElement.node .SECTION es) = some (rest, n) := h'
      rw [Option.some.injEq, Prod.mk.injEq] at h''
      obtain ⟨h1, h2⟩ := h''
      obtain ⟨hne, hconcat⟩ := section_text_spec input rest' sec hst
      have hflat : flatten n = sec := by
        rw [← h2]
        show flattens es = sec
        exact element_nodes_flat sec es hel
      subst h1
      exact ⟨by rw [← h2]; rfl, by rw [hflat]; exact hne, by rw [hflat]; exact hconcat⟩

/-- Claim C9: section_text fails on empty input and when a valid headline
start sits at the very first position, and on success it returns a nonempty
consumed slice; consequently every SECTION node produced by section_node
spans at least one byte of source text. -/
theorem section_node_never_empty (input : List Nat) :
    (input = [] → section_text input = none) ∧
    ((headline_stars input).isSome → section_text input = none) ∧
    (∀ rest sec, section_text input = some (rest, sec) →
      sec ≠ [] ∧ sec ++ rest = input) ∧
    (∀ rest n, section_node input = some (rest, n) →
      kindOf n = .SECTION ∧ flatten n ≠ [] ∧ flatten n ++ rest = input) := by
  refine ⟨?_, ?_, ?_, ?_⟩
  · intro h
    simp [section_text, h]
  · intro hs
    by_cases hnil : input = []
    · simp [section_text, hnil]
    · unfold section_text
      rw [if_neg hnil]
      have hfind : (line_starts input).find?
          (fun i => (headline_stars (input.drop i)).isSome) = some 0 := by
        unfold line_starts
        rw [List.find?_cons_of_pos]
        simp [hs]
      rw [hfind]
      simp
  · exact fun rest sec h => section_text_spec input rest sec h
  · exact fun rest n h => section_node_spec input rest n h

/-- Witness for C9 at the concrete input "hello" followed by a line feed and
the headline "* x". -/
theorem section_node_never_empty_witness :
    ([104, 101, 108, 108, 111, 10] : List Nat) ≠ [] ∧
      [104, 101, 108, 108, 111, 10] ++ [42, 32, 120]
        = [104, 101, 108, 108, 111, 10, 42, 32, 120] :=
  (section_node_never_empty [104, 101, 108, 108, 111, 10, 42, 32, 120]).2.2.1
    [42, 32, 120] [104, 101, 108, 108, 111, 10] (by rfl)

theorem line_len_pos (b : Nat) (bs : List Nat) : 1 ≤ line_len (b :: bs) := by
  unfold line_len
  split
  · omega
  · simp

theorem tagTokOk_good (e : GreenElement) (h : tagTokOk e) :
    TagsOk e ∧ textTagOk e := by
  cases e with
  | token k t =>
    refine ⟨TagsOk.token k t, ?_⟩
    cases k <;> simp only [textTagOk] <;> try trivial
    exact h.2
  | node k cs => exact absurd h (by cases k <;> exact fun hh => hh)

theorem takeWhile_append_drop_length (p : Nat → Bool) (l : List Nat) :
    l.takeWhile p ++ l.drop (l.takeWhile p).length = l := by
  conv_rhs => rw [← List.take_append_drop (l.takeWhile p).length l]
  rw [take_takeWhile_length]

theorem headline_keyword_token_spec (c : ParseConfig) (input rest w : List Nat)
    (kw : GreenElement)
    (h : headline_keyword_token c input = some (rest, kw, w)) :
    ∃ word, kw = .token .HEADLINE_KEYWORD word ∧ word ≠ [] ∧
      word ++ w ++ rest = input := by
  unfold headline_keyword_token at h
  by_cases h1 : (input.takeWhile (fun b => ! isAsciiWs b)).isEmpty
  · rw [if_pos h1] at h
    exact absurd h (by simp)
  · rw [if_neg h1] at h
    by_cases h2 : (c.todo.any (fun k => k = input.takeWhile (fun b => ! isAsciiWs b)) ||
        c.done.any (fun k => k = input.takeWhile (fun b => ! isAsciiWs b))) = true
    · rw [if_pos h2] at h
      rw [Option.some.injEq, Prod.mk.injEq] at h
      obtain ⟨hrest, hkw⟩ := h
      rw [Prod.mk.injEq] at hkw
      obtain ⟨hkw, hw⟩ := hkw
      refine ⟨input.takeWhile (fun b => ! isAsciiWs b), hkw.symm,
        by simpa [List.isEmpty_iff] using h1, ?_⟩
      rw [← hw, ← hrest, List.append_assoc, space0_append]
      exact takeWhile_append_drop_length _ input
    · rw [if_neg h2] at h
      exact absurd h (by simp)

theorem anychar_spec (input rest ch : List Nat)
    (h : anychar input = some (rest, ch)) : ch ++ rest = input := by
  unfold anychar at h
  cases input with
  | nil => exact absurd h (by simp)
  | cons b bs =>
    have h' : (if (b :: bs).length < utf8_len b then none
        else some (List.drop (utf8_len b) (b :: bs), List.take (utf8_len b) (b :: bs)))
        = some (rest, ch) := h
    by_cases hl : (b :: bs).length < utf8_len b
    · rw [if_pos hl] at h'
      exact absurd h' (by simp)
    · rw [if_neg hl] at h'
      rw [Option.some.injEq, Prod.mk.injEq] at h'
      rw [← h'.1, ← h'.2]
      exact List.take_append_drop _ _

theorem tag_byte_spec (b : Nat) (k : SyntaxKind) (input rest : List Nat)
    (e : GreenElement) (h : tag_byte b k input = some (rest, e)) :
    e = .token k [b] ∧ b :: rest = input := by
  unfold tag_byte at h
  cases input with
  | nil => exact absurd h (by simp)
  | cons c cs =>
    have h' : (if c = b then some (cs, GreenElement.token k [b]) else none)
        = some (rest, e) := h
    by_cases hc : c = b
    · rw [if_pos hc] at h'
      rw [Option.some.injEq, Prod.mk.injEq] at h'
      exact ⟨h'.2.symm, by rw [← h'.1, hc]⟩
    · rw [if_neg hc] at h'
      exact absurd h' (by simp)

theorem headline_priority_node_spec (input rest w : List Nat) (pr : GreenElement)
    (h : headline_priority_node input = some (rest, pr, w)) :
    ∃ ch, pr = .node .HEADLINE_PRIORITY
        [.token .L_BRACKET [91], .token .HASH [35],
          .token .TEXT ch, .token .R_BRACKET [93]] ∧
      flatten pr ++ w ++ rest = input := by
  unfold headline_priority_node at h
  cases h1 : tag_byte 91 .L_BRACKET input with
  | none => simp only [h1] at h; exact absurd h (by simp)
  | some p1 =>
    obtain ⟨r1, lb⟩ := p1
    simp only [h1] at h
    obtain ⟨hlb, hr1⟩ := tag_byte_spec _ _ _ _ _ h1
    cases h2 : tag_byte 35 .HASH r1 with
    | none =>
      simp only [h2] at h
      exact absurd h (by simp)
    | some p2 =>
      obtain ⟨r2, hsh⟩ := p2
      simp only [h2] at h
      obtain ⟨hhsh, hr2⟩ := tag_byte_spec _ _ _ _ _ h2
      cases h3 : anychar r2 with
      | none =>
        simp only [h3] at h
        exact absurd h (by simp)
      | some p3 =>
        obtain ⟨r3, ch⟩ := p3
        simp only [h3] at h
        have hch : ch ++ r3 = r2 := anychar_spec _ _ _ h3
        cases h4 : tag_byte 93 .R_BRACKET r3 with
        | none =>
          simp only [h4] at h
          exact absurd h (by simp)
        | some p4 =>
          obtain ⟨r4, rb⟩ := p4
          simp only [h4] at h
          obtain ⟨hrb, hr4⟩ := tag_byte_spec _ _ _ _ _ h4
          have h' : some ((space0 r4).1,
              (GreenElement.node .HEADLINE_PRIORITY
                [lb, hsh, .token .TEXT ch, rb], (space0 r4).2))
              = some (rest, pr, w) := h
          rw [Option.some.injEq, Prod.mk.injEq] at h'
          obtain ⟨hrest, hprw⟩ := h'
          rw [Prod.mk.injEq] at hprw
          obtain ⟨hpr, hw⟩ := hprw
          subst hlb hhsh hrb
          refine ⟨ch, hpr.symm, ?_⟩
          rw [← hpr, ← hw, ← hrest]
          show [91] ++ ([35] ++ (ch ++ ([93] ++ ([] ++ [])))) ++
            (space0 r4).2 ++ (space0 r4).1 = input
          rw [List.append_nil, List.append_nil, List.append_assoc, space0_append]
          rw [← hr1, ← hr2, ← hch, ← hr4]
          simp

theorem planning_node_spec (input rest : List Nat) (p : GreenElement)
    (h : planning_node input = some (rest, p)) :
    kindOf p = .PLANNING ∧ TagsOk p ∧ GoodElem p ∧ flatten p ++ rest = input := by
  simp only [planning_node] at h
  split at h
  · rw [Option.some.injEq, Prod.mk.injEq] at h
    obtain ⟨h1, h2⟩ := h
    have htags : TagsOk (.node .PLANNING [.token .TEXT (input.take (line_len input))]) := by
      refine TagsOk.node _ _ (by intro hk; exact absurd hk (by simp)) ?_
      intro e he
      rcases List.mem_singleton.mp he with rfl
      exact TagsOk.token _ _
    rw [← h2, ← h1]
    refine ⟨rfl, htags, ⟨by simp [kindOf], htags, by simp, by simp⟩, ?_⟩
    simp only [flatten, flattens, List.append_nil, List.nil_append]
    exact List.take_append_drop _ input
  · exact absurd h (by simp)

theorem property_drawer_node_spec (input rest : List Nat) (p : GreenElement)
    (h : property_drawer_node input = some (rest, p)) :
    kindOf p = .PROPERTY_DRAWER ∧ TagsOk p ∧ GoodElem p ∧ flatten p ++ rest = input := by
  simp only [property_drawer_node] at h
  split at h
  · cases hscan : drawer_end_scan (input.drop (line_len input)) with
    | none =>
      simp only [hscan] at h
      exact absurd h (by simp)
    | some m =>
      simp only [hscan] at h
      rw [Option.some.injEq, Prod.mk.injEq] at h
      obtain ⟨h1, h2⟩ := h
      have htags : TagsOk (.node .PROPERTY_DRAWER
          [.token .TEXT (input.take (line_len input + m))]) := by
        refine TagsOk.node _ _ (by intro hk; exact absurd hk (by simp)) ?_
        intro e he
        rcases List.mem_singleton.mp he with rfl
        exact TagsOk.token _ _
      rw [← h2, ← h1]
      refine ⟨rfl, htags, ⟨by simp [kindOf], htags, by simp, by simp⟩, ?_⟩
      simp only [flatten, flattens, List.append_nil, List.nil_append]
      exact List.take_append_drop _ input
  · exact absurd h (by simp)

theorem element_nodes_tagsOk (input : List Nat) (es : List GreenElement)
    (h : element_nodes input = some es) : ∀ e ∈ es, TagsOk e := by
  by_cases hh : input = []
  · simp [element_nodes, hh] at h
    subst h
    intro e he
    simp at he
  · simp [element_nodes, hh] at h
    subst h
    intro e he
    rcases List.mem_singleton.mp he with rfl
    refine TagsOk.node _ _ (by intro hk; exact absurd hk (by simp)) ?_
    intro e2 he2
    rcases List.mem_singleton.mp he2 with rfl
    exact TagsOk.token _ _

theorem section_node_tagsOk (input rest : List Nat) (n : GreenElement)
    (h : section_node input = some (rest, n)) : TagsOk n := by
  unfold section_node at h
  cases hst : section_text input with
  | none => rw [hst] at h; exact absurd h (by simp)
  | some p =>
    obtain ⟨rest', sec⟩ := p
    simp only [hst] at h
    cases hel : element_nodes sec with
    | none =>
      simp only [hel] at h
      exact absurd h (by simp)
    | some es =>
      simp only [hel] at h
      rw [Option.some.injEq, Prod.mk.injEq] at h
      rw [← h.2]
      refine TagsOk.node _ _ (by intro hk; exact absurd hk (by simp)) ?_
      exact element_nodes_tagsOk sec es hel

theorem headline_tags_node_good (input title : List Nat) (tg : GreenElement)
    (h : headline_tags_node input = some (title, tg)) :
    kindOf tg = .HEADLINE_TAGS ∧ TagsOk tg ∧ GoodElem tg ∧
      title ++ flatten tg = input := by
  obtain ⟨hend, cs, i, htg, hlen2, hok, htitle, hilt, hconcat, hcond⟩ :=
    headline_tags_node_inv input title tg h
  have htags : TagsOk tg := by
    rw [htg]
    refine TagsOk.node _ _ ?_ ?_
    · intro _ e he
      exact (tagTokOk_good e (hok e he)).2
    · intro e he
      exact (tagTokOk_good e (hok e he)).1
  refine ⟨by rw [htg]; rfl, htags, ⟨by rw [htg]; simp [kindOf], htags, ?_, ?_⟩, ?_⟩
  · rw [htg]; simp
  · rw [htg]; simp
  · rw [htg]
    show title ++ flattens cs = input
    exact hconcat

theorem opt_tags_spec (content : List Nat) :
    (opt_tags content).1 ++ optFlat (opt_tags content).2 = content ∧
    (∀ tg, (opt_tags content).2 = some tg →
      kindOf tg = .HEADLINE_TAGS ∧ TagsOk tg ∧ GoodElem tg) := by
  unfold opt_tags
  cases htn : headline_tags_node content with
  | none =>
    refine ⟨by simp [optFlat], ?_⟩
    intro tg htg
    simp at htg
  | some p =>
    obtain ⟨t, tg⟩ := p
    obtain ⟨hkind, htags, hgood, hconcat⟩ := headline_tags_node_good content t tg htn
    refine ⟨by simpa [optFlat] using hconcat, ?_⟩
    intro tg2 htg2
    simp only [Option.some.injEq] at htg2
    rw [← htg2]
    exact ⟨hkind, htags, hgood⟩

theorem trim_line_end_append (input rest c w n : List Nat)
    (h : trim_line_end input = some (rest, (c, w, n))) :
    c ++ w ++ n ++ rest = input := by
  simp only [trim_line_end, Option.some.injEq, Prod.mk.injEq] at h
  obtain ⟨hrest, hcontents, hws, hnl⟩ := h
  set nn := (match input.findIdx? (fun b => b = 10) with
    | some i => i + 1
    | none => input.length) with hnn
  set ln := input.take nn with hln
  set k := (match rposition (fun u => ! isAsciiWs u) ln with
    | some i => i + 1
    | none => 0) with hk
  rw [← hcontents, ← hws, ← hnl, ← hrest]
  simp only [space0, List.append_assoc]
  rw [← List.append_assoc (List.takeWhile isSpaceTab (ln.drop k)),
    List.takeWhile_append_dropWhile, ← List.append_assoc, List.take_append_drop,
    hln, List.take_append_drop]

theorem builder_ws_step (b : NodeBuilder) (i : List Nat) :
    ∃ d, (NodeBuilder.ws b i).children = b.children ++ d ∧ flattens d = i ∧
      ∀ e ∈ d, GoodElem e := by
  by_cases h : i.isEmpty
  · refine ⟨[], by simp [NodeBuilder.ws, h], ?_, by simp⟩
    rw [List.isEmpty_iff.mp h]
    rfl
  · have hne : i ≠ [] := by simpa [List.isEmpty_iff] using h
    refine ⟨[.token .WHITESPACE i], by simp [NodeBuilder.ws, h], ?_, ?_⟩
    · simp [flattens, flatten]
    · intro e he
      rcases List.mem_singleton.mp he with rfl
      exact ⟨by simp [kindOf], TagsOk.token _ _, by simp [hne], by simp⟩

theorem builder_nl_step (b : NodeBuilder) (i : List Nat) :
    ∃ d, (NodeBuilder.nl b i).children = b.children ++ d ∧ flattens d = i ∧
      ∀ e ∈ d, GoodElem e := by
  by_cases h : i.isEmpty
  · refine ⟨[], by simp [NodeBuilder.nl, h], ?_, by simp⟩
    rw [List.isEmpty_iff.mp h]
    rfl
  · have hne : i ≠ [] := by simpa [List.isEmpty_iff] using h
    refine ⟨[.token .NEW_LINE i], by simp [NodeBuilder.nl, h], ?_, ?_⟩
    · simp [flattens, flatten]
    · intro e he
      rcases List.mem_singleton.mp he with rfl
      exact ⟨by simp [kindOf], TagsOk.token _ _, by simp, by simp [hne]⟩

theorem builder_push_opt_step (b : NodeBuilder) (o : Option GreenElement)
    (ho : ∀ e, o = some e → GoodElem e) :
    ∃ d, (NodeBuilder.push_opt b o).children = b.children ++ d ∧
      flattens d = optFlat o ∧ ∀ e ∈ d, GoodElem e := by
  cases o with
  | none => exact ⟨[], by simp [NodeBuilder.push_opt], rfl, by simp⟩
  | some e =>
    refine ⟨[e], by simp [NodeBuilder.push_opt, NodeBuilder.push], ?_, ?_⟩
    · simp [flattens, flatten, optFlat]
    · intro e2 he2
      rcases List.mem_singleton.mp he2 with rfl
      exact ho e2 rfl

theorem push_title_step (title : List Nat) (b : NodeBuilder) :
    ∃ d, (push_title title b).children = b.children ++ d ∧ flattens d = title ∧
      ∀ e ∈ d, GoodElem e := by
  by_cases h : title.isEmpty
  · refine ⟨[], by simp [push_title, h], ?_, by simp⟩
    rw [List.isEmpty_iff.mp h]
    rfl
  · refine ⟨[.node .HEADLINE_TITLE (object_nodes title)],
      by simp [push_title, h, NodeBuilder.push], ?_, ?_⟩
    · simp only [flattens, flatten, List.append_nil]
      exact object_nodes_flat title
    · intro e he
      rcases List.mem_singleton.mp he with rfl
      have htags : TagsOk (.node .HEADLINE_TITLE (object_nodes title)) := by
        refine TagsOk.node _ _ (by intro hk; exact absurd hk (by simp)) ?_
        intro e2 he2
        unfold object_nodes at he2
        split at he2
        · simp at he2
        · rcases List.mem_singleton.mp he2 with rfl
          exact TagsOk.token _ _
      exact ⟨by simp [kindOf], htags, by simp, by simp⟩

theorem opt_push_step (p : List Nat → Option (List Nat × GreenElement))
    (input : List Nat) (b : NodeBuilder)
    (hp : ∀ i e, p input = some (i, e) → GoodElem e ∧ flatten e ++ i = input) :
    flattens (opt_push p input b).2.children ++ (opt_push p input b).1
        = flattens b.children ++ input ∧
    ∃ d, (opt_push p input b).2.children = b.children ++ d ∧ ∀ e ∈ d, GoodElem e := by
  unfold opt_push
  cases hpi : p input with
  | none => exact ⟨rfl, [], by simp, by simp⟩
  | some q =>
    obtain ⟨i, e⟩ := q
    obtain ⟨hgood, hflat⟩ := hp i e hpi
    constructor
    · show flattens (b.children ++ [e]) ++ i = flattens b.children ++ input
      rw [flattens_append, ← hflat]
      simp [flattens]
    · refine ⟨[e], by simp [NodeBuilder.push], ?_⟩
      intro e2 he2
      rcases List.mem_singleton.mp he2 with rfl
      exact hgood

theorem opt_push_keyword_spec (c : ParseConfig) (input : List Nat) (b : NodeBuilder) :
    flattens (opt_push_keyword c input b).2.children ++ (opt_push_keyword c input b).1
        = flattens b.children ++ input ∧
    ∃ d, (opt_push_keyword c input b).2.children = b.children ++ d ∧
      ∀ e ∈ d, GoodElem e := by
  unfold opt_push_keyword
  cases hk : headline_keyword_token c input with
  | none => exact ⟨rfl, [], by simp, by simp⟩
  | some q =>
    obtain ⟨i, kw, w⟩ := q
    obtain ⟨word, hkw, hwne, hconcat⟩ := headline_keyword_token_spec c input i w kw hk
    obtain ⟨d2, hd2, hf2, hg2⟩ := builder_ws_step (b.push kw) w
    constructor
    · show flattens ((NodeBuilder.ws (b.push kw) w).children) ++ i
        = flattens b.children ++ input
      rw [hd2]
      show flattens ((b.push kw).children ++ d2) ++ i = _
      rw [flattens_append, hf2]
      show flattens (b.children ++ [kw]) ++ w ++ i = _
      rw [flattens_append, hkw]
      simp only [flattens, flatten, List.append_nil, List.append_assoc]
      have hconcat2 : word ++ (w ++ i) = input := by
        rw [← List.append_assoc]
        exact hconcat
      rw [hconcat2]
    · refine ⟨kw :: d2, ?_, ?_⟩
      · rw [hd2]
        show (b.children ++ [kw]) ++ d2 = b.children ++ (kw :: d2)
        simp
      · intro e he
        rcases List.mem_cons.mp he with rfl | he
        · rw [hkw]
          exact ⟨by simp [kindOf], TagsOk.token _ _, by simp, by simp⟩
        · exact hg2 e he

theorem opt_push_priority_spec (input : List Nat) (b : NodeBuilder) :
    flattens (opt_push_priority input b).2.children ++ (opt_push_priority input b).1
        = flattens b.children ++ input ∧
    ∃ d, (opt_push_priority input b).2.children = b.children ++ d ∧
      ∀ e ∈ d, GoodElem e := by
  unfold opt_push_priority
  cases hk : headline_priority_node input with
  | none => exact ⟨rfl, [], by simp, by simp⟩
  | some q =>
    obtain ⟨i, pr, w⟩ := q
    obtain ⟨ch, hpr, hconcat⟩ := headline_priority_node_spec input i w pr hk
    obtain ⟨d2, hd2, hf2, hg2⟩ := builder_ws_step (b.push pr) w
    have hprgood : GoodElem pr := by
      have htags : TagsOk pr := by
        rw [hpr]
        refine TagsOk.node _ _ (by intro hk2; exact absurd hk2 (by simp)) ?_
        intro e2 he2
        fin_cases he2 <;> exact TagsOk.token _ _
      exact ⟨by rw [hpr]; simp [kindOf], htags, by rw [hpr]; simp, by rw [hpr]; simp⟩
    constructor
    · show flattens ((NodeBuilder.ws (b.push pr) w).children) ++ i
        = flattens b.children ++ input
      rw [hd2]
      show flattens ((b.push pr).children ++ d2) ++ i = _
      rw [flattens_append, hf2]
      show flattens (b.children ++ [pr]) ++ w ++ i = _
      rw [flattens_append]
      simp only [flattens, List.append_nil, List.append_assoc]
      have hconcat2 : flatten pr ++ (w ++ i) = input := by
        rw [← List.append_assoc]
        exact hconcat
      rw [hconcat2]
    · refine ⟨pr :: d2, ?_, ?_⟩
      · rw [hd2]
        show (b.children ++ [pr]) ++ d2 = b.children ++ (pr :: d2)
        simp
      · intro e he
        rcases List.mem_cons.mp he with rfl | he
        · exact hprgood
        · exact hg2 e he

theorem headline_level_cons (k : SyntaxKind) (st : List Nat) (cs : List GreenElement) :
    headline_level (.node k (.token .HEADLINE_STARS st :: cs)) = some st.length := by
  simp [headline_level, headline_stars_token, elemChildren, List.findSome?_cons]

theorem section_node_good (input rest : List Nat) (n : GreenElement)
    (h : section_node input = some (rest, n)) :
    GoodElem n ∧ flatten n ++ rest = input := by
  obtain ⟨hkind, hne, hflat⟩ := section_node_spec input rest n h
  have htags : TagsOk n := section_node_tagsOk input rest n h
  have hnode : ∃ es, n = GreenElement.node .SECTION es := by
    unfold section_node at h
    cases hst : section_text input with
    | none => rw [hst] at h; exact absurd h (by simp)
    | some p =>
      obtain ⟨rest', sec⟩ := p
      simp only [hst] at h
      cases hel : element_nodes sec with
      | none =>
        simp only [hel] at h
        exact absurd h (by simp)
      | some es =>
        simp only [hel] at h
        rw [Option.some.injEq, Prod.mk.injEq] at h
        exact ⟨es, h.2.symm⟩
  obtain ⟨es, hes⟩ := hnode
  subst hes
  exact ⟨⟨by simp [kindOf], htags, by simp, by simp⟩, hflat⟩

theorem NodeInv_of_parts (input rest stars : List Nat) (d hs : List GreenElement)
    (hstarRun : stars = starRun input)
    (hpos : 0 < stars.length)
    (hflat : flattens (.token .HEADLINE_STARS stars :: (d ++ hs)) ++ rest = input)
    (hd : ∀ e ∈ d, GoodElem e)
    (hhs : ∀ h ∈ hs, TagsOk h ∧ ∃ st cs,
      h = .node .HEADLINE (.token .HEADLINE_STARS st :: cs) ∧ stars.length < st.length) :
    NodeInv input rest (.node .HEADLINE (.token .HEADLINE_STARS stars :: (d ++ hs))) := by
  refine ⟨⟨d ++ hs, by rw [hstarRun]⟩, ?_, by rw [← hstarRun]; exact hpos, ?_, ?_, ?_⟩
  · show flattens (.token .HEADLINE_STARS stars :: (d ++ hs)) ++ rest = input
    exact hflat
  · intro e he hke
    simp only [elemChildren] at he
    rcases List.mem_cons.mp he with rfl | he
    · exact absurd hke (by simp [kindOf])
    · rcases List.mem_append.mp he with he | he
      · exact absurd hke (hd e he).1
      · obtain ⟨-, st, cs, hsh, hlt⟩ := hhs e he
        refine ⟨st.length, ?_, by rw [← hstarRun]; exact hlt⟩
        rw [hsh]
        exact headline_level_cons _ _ _
  · refine TagsOk.node _ _ (by intro hk; exact absurd hk (by simp)) ?_
    intro e he
    rcases List.mem_cons.mp he with rfl | he
    · exact TagsOk.token _ _
    · rcases List.mem_append.mp he with he | he
      · exact (hd e he).2.1
      · exact (hhs e he).1
  · intro e he
    simp only [elemChildren] at he
    rcases List.mem_cons.mp he with rfl | he
    · exact ⟨by simp, by simp⟩
    · rcases List.mem_append.mp he with he | he
      · exact ⟨(hd e he).2.2.1, (hd e he).2.2.2⟩
      · obtain ⟨-, st, cs, hsh, -⟩ := hhs e he
        rw [hsh]
        exact ⟨by simp, by simp⟩

theorem headline_invariants (c : ParseConfig) (fuel : Nat) :
    (∀ input rest t, headlineNodeF c fuel input = some (rest, t) →
      NodeInv input rest t) ∧
    (∀ level input rest hs, headlineChildrenF c fuel level input = some (rest, hs) →
      ChildrenInv level input rest hs) := by
  induction fuel with
  | zero =>
    constructor
    · intro input rest t h
      exact absurd h (by simp [headlineNodeF])
    · intro level input rest hs h
      exact absurd h (by simp [headlineChildrenF])
  | succ fuel ih =>
    obtain ⟨ihN, ihC⟩ := ih
    constructor
    · intro input rest t h
      simp only [headlineNodeF] at h
      cases hst : headline_stars input with
      | none =>
        simp only [hst] at h
        exact absurd h (by simp)
      | some p =>
        obtain ⟨input1, stars⟩ := p
        simp only [hst] at h
        obtain ⟨hstarRun, hinput1, hstarPos⟩ := headline_stars_eq_some input input1 stars hst
        have hsi : stars ++ input1 = input := by
          rw [hstarRun, hinput1]
          simp only [starRun]
          exact takeWhile_append_drop_length _ input
        set b0 := (NodeBuilder.new).token .HEADLINE_STARS stars with hb0
        set s1 := space0 input1 with hs1
        set b1 := b0.ws s1.2 with hb1
        set s2 := opt_push_keyword c s1.1 b1 with hs2
        set s3 := opt_push_priority s2.1 s2.2 with hs3
        have hb0c : b0.children = [.token .HEADLINE_STARS stars] := by
          rw [hb0]
          simp [NodeBuilder.token, NodeBuilder.new]
        have hb0f : flattens b0.children = stars := by
          rw [hb0c]
          simp [flattens, flatten]
        obtain ⟨d1, hd1, hf1, hg1⟩ := builder_ws_step b0 s1.2
        rw [← hb1] at hd1
        have hF1 : flattens b1.children ++ s1.1 = stars ++ input1 := by
          rw [hd1, flattens_append, hb0f, hf1, List.append_assoc, hs1, space0_append]
        obtain ⟨hF2, d2, hd2, hg2⟩ := opt_push_keyword_spec c s1.1 b1
        rw [← hs2] at hF2 hd2
        obtain ⟨hF3, d3, hd3, hg3⟩ := opt_push_priority_spec s2.1 s2.2
        rw [← hs3] at hF3 hd3
        have hF3' : flattens s3.2.children ++ s3.1 = input := by
          rw [hF3, hF2, hF1, hsi]
        have hs3shape : ∃ dA, s3.2.children = .token .HEADLINE_STARS stars :: dA ∧
            ∀ e ∈ dA, GoodElem e := by
          refine ⟨(d1 ++ d2) ++ d3, ?_, ?_⟩
          · rw [hd3, hd2, hd1, hb0c]
            simp
          · intro e he
            rcases List.mem_append.mp he with he | he
            · rcases List.mem_append.mp he with he | he
              · exact hg1 e he
              · exact hg2 e he
            · exact hg3 e he
        obtain ⟨dA, hdA, hgA⟩ := hs3shape
        cases htr : trim_line_end s3.1 with
        | none =>
          simp only [htr] at h
          exact absurd h (by simp)
        | some q =>
          obtain ⟨input5, tat, ws2, nl⟩ := q
          simp only [htr] at h
          have hsplit : tat ++ ws2 ++ nl ++ input5 = s3.1 :=
            trim_line_end_append s3.1 input5 tat ws2 nl htr
          set tt := opt_tags tat with htt
          set b5 := push_title tt.1 s3.2 with hb5
          set b6 := ((b5.push_opt tt.2).ws ws2).nl nl with hb6
          obtain ⟨httflat, httgood⟩ := opt_tags_spec tat
          rw [← htt] at httflat httgood
          obtain ⟨d5, hd5, hf5, hg5⟩ := push_title_step tt.1 s3.2
          rw [← hb5] at hd5
          obtain ⟨d6a, hd6a, hf6a, hg6a⟩ := builder_push_opt_step b5 tt.2
            (fun e he => (httgood e he).2.2)
          obtain ⟨d6b, hd6b, hf6b, hg6b⟩ := builder_ws_step (b5.push_opt tt.2) ws2
          obtain ⟨d6c, hd6c, hf6c, hg6c⟩ := builder_nl_step ((b5.push_opt tt.2).ws ws2) nl
          have hb6c : b6.children = s3.2.children ++ (d5 ++ (d6a ++ (d6b ++ d6c))) := by
            rw [hb6, hd6c, hd6b, hd6a, hd5]
            simp
          have hb6shape : b6.children
              = .token .HEADLINE_STARS stars :: (dA ++ (d5 ++ (d6a ++ (d6b ++ d6c)))) := by
            rw [hb6c, hdA]
            simp
          have hgB : ∀ e ∈ dA ++ (d5 ++ (d6a ++ (d6b ++ d6c))), GoodElem e := by
            intro e he
            rcases List.mem_append.mp he with he | he
            · exact hgA e he
            rcases List.mem_append.mp he with he | he
            · exact hg5 e he
            rcases List.mem_append.mp he with he | he
            · exact hg6a e he
            rcases List.mem_append.mp he with he | he
            · exact hg6b e he
            · exact hg6c e he
          have hzz : (tt.1 ++ (optFlat tt.2 ++ (ws2 ++ nl))) ++ input5 = s3.1 := by
            have h1 : (tt.1 ++ (optFlat tt.2 ++ (ws2 ++ nl))) ++ input5
                = (tt.1 ++ optFlat tt.2) ++ (ws2 ++ (nl ++ input5)) := by
              simp [List.append_assoc]
            rw [h1, httflat, ← hsplit]
            simp [List.append_assoc]
          have hb6flat : flattens b6.children
              = flattens s3.2.children ++ (tt.1 ++ (optFlat tt.2 ++ (ws2 ++ nl))) := by
            rw [hb6c]
            simp only [flattens_append, List.append_assoc]
            rw [hf5, hf6a, hf6b, hf6c]
          have hb6F : flattens b6.children ++ input5 = input := by
            rw [hb6flat, List.append_assoc, hzz, hF3']
          by_cases hnl : nl.isEmpty
          · rw [if_pos hnl] at h
            rw [Option.some.injEq, Prod.mk.injEq] at h
            obtain ⟨hrest, ht⟩ := h
            rw [← ht]
            show NodeInv input rest (GreenElement.node .HEADLINE b6.children)
            rw [hb6shape]
            have hflatgoal : flattens
                (.token .HEADLINE_STARS stars
                  :: ((dA ++ (d5 ++ (d6a ++ (d6b ++ d6c)))) ++ [])) ++ rest = input := by
              rw [List.append_nil, ← hb6shape, ← hrest]
              exact hb6F
            have := NodeInv_of_parts input rest stars
              (dA ++ (d5 ++ (d6a ++ (d6b ++ d6c)))) [] hstarRun
              (by rw [hstarRun]; exact hstarPos) hflatgoal hgB (by simp)
            simpa using this
          · rw [if_neg hnl] at h
            set s4 := opt_push planning_node input5 b6 with hs4
            set s5 := opt_push property_drawer_node s4.1 s4.2 with hs5
            set s6 := opt_push section_node s5.1 s5.2 with hs6
            obtain ⟨hF4, d7, hd7, hg7⟩ := opt_push_step planning_node input5 b6
              (fun i e hpe => ⟨(planning_node_spec input5 i e hpe).2.2.1,
                (planning_node_spec input5 i e hpe).2.2.2⟩)
            rw [← hs4] at hF4 hd7
            obtain ⟨hF5, d8, hd8, hg8⟩ := opt_push_step property_drawer_node s4.1 s4.2
              (fun i e hpe => ⟨(property_drawer_node_spec s4.1 i e hpe).2.2.1,
                (property_drawer_node_spec s4.1 i e hpe).2.2.2⟩)
            rw [← hs5] at hF5 hd8
            obtain ⟨hF6, d9, hd9, hg9⟩ := opt_push_step section_node s5.1 s5.2
              (fun i e hpe => section_node_good s5.1 i e hpe)
            rw [← hs6] at hF6 hd9
            have hF6' : flattens s6.2.children ++ s6.1 = input := by
              rw [hF6, hF5, hF4, hb6F]
            have hs6shape : s6.2.children
                = .token .HEADLINE_STARS stars
                  :: ((dA ++ (d5 ++ (d6a ++ (d6b ++ d6c)))) ++ (d7 ++ (d8 ++ d9))) := by
              rw [hd9, hd8, hd7, hb6shape]
              simp
            have hgC : ∀ e ∈ (dA ++ (d5 ++ (d6a ++ (d6b ++ d6c)))) ++ (d7 ++ (d8 ++ d9)),
                GoodElem e := by
              intro e he
              rcases List.mem_append.mp he with he | he
              · exact hgB e he
              rcases List.mem_append.mp he with he | he
              · exact hg7 e he
              rcases List.mem_append.mp he with he | he
              · exact hg8 e he
              · exact hg9 e he
            cases hch : headlineChildrenF c fuel stars.length s6.1 with
            | none =>
              simp only [hch] at h
              exact absurd h (by simp)
            | some q2 =>
              obtain ⟨input9, hs⟩ := q2
              simp only [hch] at h
              rw [Option.some.injEq, Prod.mk.injEq] at h
              obtain ⟨hrest, ht⟩ := h
              obtain ⟨hcflat, hcall⟩ := ihC stars.length s6.1 input9 hs hch
              rw [← ht]
              show NodeInv input rest (GreenElement.node .HEADLINE (s6.2.children ++ hs))
              have hlist : s6.2.children ++ hs
                  = .token .HEADLINE_STARS stars
                    :: (((dA ++ (d5 ++ (d6a ++ (d6b ++ d6c)))) ++ (d7 ++ (d8 ++ d9))) ++ hs) := by
                rw [hs6shape]
                simp
              rw [hlist]
              apply NodeInv_of_parts input rest stars _ hs hstarRun
                (by rw [hstarRun]; exact hstarPos)
              · rw [← hlist, flattens_append, List.append_assoc, ← hrest, hcflat, hF6']
              · exact hgC
              · exact hcall
    · intro level input rest hs h
      simp only [headlineChildrenF] at h
      by_cases hempty : input.isEmpty
      · rw [if_pos hempty] at h
        rw [Option.some.injEq, Prod.mk.injEq] at h
        obtain ⟨h1, h2⟩ := h
        rw [← h1, ← h2]
        exact ⟨by simp [flattens], by simp⟩
      · rw [if_neg hempty] at h
        by_cases hle : (input.takeWhile (fun b => b = 42)).length ≤ level
        · rw [if_pos hle] at h
          rw [Option.some.injEq, Prod.mk.injEq] at h
          obtain ⟨h1, h2⟩ := h
          rw [← h1, ← h2]
          exact ⟨by simp [flattens], by simp⟩
        · rw [if_neg hle] at h
          cases hn : headlineNodeF c fuel input with
          | none =>
            simp only [hn] at h
            exact absurd h (by simp)
          | some q =>
            obtain ⟨i2, hd⟩ := q
            simp only [hn] at h
            cases hc2 : headlineChildrenF c fuel level i2 with
            | none =>
              simp only [hc2] at h
              exact absurd h (by simp)
            | some q2 =>
              obtain ⟨i3, hs2⟩ := q2
              simp only [hc2] at h
              rw [Option.some.injEq, Prod.mk.injEq] at h
              obtain ⟨h1, h2⟩ := h
              obtain ⟨hshape, hflat, hpos, hA4, htags, hws⟩ := ihN input i2 hd hn
              obtain ⟨hcflat, hcall⟩ := ihC level i2 i3 hs2 hc2
              rw [← h1, ← h2]
              constructor
              · simp only [flattens, List.append_assoc]
                rw [hcflat, hflat]
              · intro x hx
                rcases List.mem_cons.mp hx with rfl | hx
                · obtain ⟨cs, hcs⟩ := hshape
                  refine ⟨htags, starRun input, cs, hcs, ?_⟩
                  simp only [starRun]
                  omega
                · exact hcall x hx

/-- Claim C1: for every input and parse config on which headline_node
succeeds with remaining input rest and subtree t, the concatenation of the
texts of the tokens of t in left-to-right order equals exactly the consumed
prefix of the input: flatten t followed by rest is the input, so
serializing the parsed subtree reproduces the consumed input byte for
byte. -/
theorem headline_node_lossless (c : ParseConfig) (input rest : List Nat)
    (t : GreenElement) (h : headline_node c input = some (rest, t)) :
    flatten t ++ rest = input :=
  ((headline_invariants c (2 * input.length + 2)).1 input rest t h).2.1

/-- Witness for C1 at the concrete input "* a". -/
theorem headline_node_lossless_witness :
    flatten (.node .HEADLINE
      [.token .HEADLINE_STARS [42], .token .WHITESPACE [32],
        .node .HEADLINE_TITLE [.token .TEXT [97]]]) ++ [] = [42, 32, 97] :=
  headline_node_lossless defaultConfig [42, 32, 97] []
    (.node .HEADLINE
      [.token .HEADLINE_STARS [42], .token .WHITESPACE [32],
        .node .HEADLINE_TITLE [.token .TEXT [97]]]) (by rfl)

/-- Claim C2: every direct child of kind HEADLINE of a HEADLINE produced by
headline_node carries a HEADLINE_STARS token strictly longer than that of
its parent: a headline of level L contains only child headlines of level
greater than L. -/
theorem headline_node_nesting (c : ParseConfig) (input rest : List Nat)
    (t : GreenElement) (h : headline_node c input = some (rest, t)) :
    ∀ e ∈ elemChildren t, kindOf e = .HEADLINE →
      ∃ le lt, headline_level e = some le ∧ headline_level t = some lt ∧
        lt < le := by
  obtain ⟨⟨cs, hcs⟩, -, -, hA4, -, -⟩ :=
    (headline_invariants c (2 * input.length + 2)).1 input rest t h
  intro e he hke
  obtain ⟨le, hle, hlt⟩ := hA4 e he hke
  refine ⟨le, (starRun input).length, hle, ?_, hlt⟩
  rw [hcs]
  exact headline_level_cons _ _ _

/-- Witness for C2 at the concrete input "* a" followed by a line feed and
"** b": the only HEADLINE child has level 2 while the parent has level 1. -/
theorem headline_node_nesting_witness :
    ∃ le lt, headline_level (.node .HEADLINE
        [.token .HEADLINE_STARS [42, 42], .token .WHITESPACE [32],
          .node .HEADLINE_TITLE [.token .TEXT [98]]]) = some le ∧
      headline_level (.node .HEADLINE
        [.token .HEADLINE_STARS [42], .token .WHITESPACE [32],
          .node .HEADLINE_TITLE [.token .TEXT [97]], .token .NEW_LINE [10],
          .node .HEADLINE
            [.token .HEADLINE_STARS [42, 42], .token .WHITESPACE [32],
              .node .HEADLINE_TITLE [.token .TEXT [98]]]]) = some lt ∧
      lt < le :=
  headline_node_nesting defaultConfig [42, 32, 97, 10, 42, 42, 32, 98] []
    (.node .HEADLINE
      [.token .HEADLINE_STARS [42], .token .WHITESPACE [32],
        .node .HEADLINE_TITLE [.token .TEXT [97]], .token .NEW_LINE [10],
        .node .HEADLINE
          [.token .HEADLINE_STARS [42, 42], .token .WHITESPACE [32],
            .node .HEADLINE_TITLE [.token .TEXT [98]]]]) (by rfl)
    (.node .HEADLINE
      [.token .HEADLINE_STARS [42, 42], .token .WHITESPACE [32],
        .node .HEADLINE_TITLE [.token .TEXT [98]]])
    (by simp [elemChildren]) (by rfl)

/-- Claim C5: in every subtree produced by headline_node, the direct
children of any HEADLINE_TAGS node hold only TEXT tokens over the allowed
tag alphabet, as expressed by the TagsOk predicate. -/
theorem headline_node_tag_alphabet (c : ParseConfig) (input rest : List Nat)
    (t : GreenElement) (h : headline_node c input = some (rest, t)) :
    TagsOk t :=
  ((headline_invariants c (2 * input.length + 2)).1 input rest t h).2.2.2.2.1

/-- Witness for C5 at the concrete input "* a :t:". -/
theorem headline_node_tag_alphabet_witness :
    TagsOk (.node .HEADLINE
      [.token .HEADLINE_STARS [42], .token .WHITESPACE [32],
        .node .HEADLINE_TITLE [.token .TEXT [97, 32]],
        .node .HEADLINE_TAGS
          [.token .COLON [58], .token .TEXT [116], .token .COLON [58]]]) :=
  headline_node_tag_alphabet defaultConfig [42, 32, 97, 32, 58, 116, 58] []
    (.node .HEADLINE
      [.token .HEADLINE_STARS [42], .token .WHITESPACE [32],
        .node .HEADLINE_TITLE [.token .TEXT [97, 32]],
        .node .HEADLINE_TAGS
          [.token .COLON [58], .token .TEXT [116], .token .COLON [58]]]) (by rfl)

/-- Claim C10: NodeBuilder ws and nl silently drop empty input slices, so a
zero-length WHITESPACE or NEW_LINE token is never pushed; consequently no
direct child of a HEADLINE node assembled by headline_node is a zero-length
WHITESPACE or NEW_LINE token. -/
theorem builder_drops_empty_ws_nl :
    (∀ b : NodeBuilder, NodeBuilder.ws b [] = b ∧ NodeBuilder.nl b [] = b) ∧
    (∀ c input rest t, headline_node c input = some (rest, t) →
      ∀ e ∈ elemChildren t,
        e ≠ .token .WHITESPACE [] ∧ e ≠ .token .NEW_LINE []) := by
  constructor
  · intro b
    constructor
    · simp [NodeBuilder.ws]
    · simp [NodeBuilder.nl]
  · intro c input rest t h
    exact ((headline_invariants c (2 * input.length + 2)).1 input rest t h).2.2.2.2.2

/-- Witness for C10: the builder is unchanged by empty pushes, and no child
of the headline parsed from "* a" is a zero-length WHITESPACE or NEW_LINE
token, in particular not its whitespace token. -/
theorem builder_drops_empty_ws_nl_witness :
    NodeBuilder.ws ⟨[]⟩ [] = (⟨[]⟩ : NodeBuilder) ∧
      ((.token .WHITESPACE [32] : GreenElement) ≠ .token .WHITESPACE [] ∧
        (.token .WHITESPACE [32] : GreenElement) ≠ .token .NEW_LINE []) :=
  ⟨(builder_drops_empty_ws_nl.1 ⟨[]⟩).1,
    builder_drops_empty_ws_nl.2 defaultConfig [42, 32, 97] []
      (.node .HEADLINE
        [.token .HEADLINE_STARS [42], .token .WHITESPACE [32],
          .node .HEADLINE_TITLE [.token .TEXT [97]]]) (by rfl)
      (.token .WHITESPACE [32]) (by simp [elemChildren])⟩

/-- Claim C7: is_range returns true exactly when three or more MINUS tokens
appear among the direct children, strictly more than two: the two minus
signs that can occur inside a single body do not make a range, a true range
requires at least the double-minus separator. -/
theorem is_range_iff (cs : List GreenElement) :
    is_range cs = true ↔
      3 ≤ cs.countP (fun e => match e with
        | .token .MINUS _ => true
        | _ => false) := by
  unfold is_range
  have hlen : (cs.filterMap (filter_token .MINUS)).length
      = cs.countP (fun e => match e with
        | .token .MINUS _ => true
        | _ => false) := by
    induction cs with
    | nil => simp
    | cons e es ih =>
      cases e with
      | token k t =>
        by_cases hk : k = .MINUS
        · subst hk
          simp [filter_token, List.countP_cons, ih]
        · cases k <;> simp_all [filter_token, List.countP_cons]
      | node k cs2 => simp [filter_token, List.countP_cons, ih]
  rw [decide_eq_true_iff, hlen]
  omega

/-- Claim C8: repeater_value and warning_value return none, and are total,
whenever the element following the first mark is missing, is a node rather
than a token, or is a token whose text does not parse as a valid 32-bit
unsigned integer (overflow included); a value is returned only for a token
with a valid integer text. -/
theorem value_accessors_absent (cs : List GreenElement) :
    ((after_first .TIMESTAMP_REPEATER_MARK cs = none → repeater_value cs = none) ∧
      (∀ k cs2, after_first .TIMESTAMP_REPEATER_MARK cs = some (.node k cs2) →
        repeater_value cs = none) ∧
      (∀ k t, after_first .TIMESTAMP_REPEATER_MARK cs = some (.token k t) →
        parse_u32 t = none → repeater_value cs = none) ∧
      (∀ v, repeater_value cs = some v →
        ∃ k t, after_first .TIMESTAMP_REPEATER_MARK cs = some (.token k t) ∧
          parse_u32 t = some v)) ∧
    ((after_first .TIMESTAMP_DELAY_MARK cs = none → warning_value cs = none) ∧
      (∀ k cs2, after_first .TIMESTAMP_DELAY_MARK cs = some (.node k cs2) →
        warning_value cs = none) ∧
      (∀ k t, after_first .TIMESTAMP_DELAY_MARK cs = some (.token k t) →
        parse_u32 t = none → warning_value cs = none) ∧
      (∀ v, warning_value cs = some v →
        ∃ k t, after_first .TIMESTAMP_DELAY_MARK cs = some (.token k t) ∧
          parse_u32 t = some v)) := by
  constructor
  · refine ⟨?_, ?_, ?_, ?_⟩
    · intro h
      simp [repeater_value, h]
    · intro k cs2 h
      simp [repeater_value, h]
    · intro k t h hp
      simp [repeater_value, h, hp]
    · intro v h
      unfold repeater_value at h
      cases haf : after_first .TIMESTAMP_REPEATER_MARK cs with
      | none => rw [haf] at h; simp at h
      | some e =>
        rw [haf] at h
        cases e with
        | token k t =>
          refine ⟨k, t, rfl, ?_⟩
          simpa using h
        | node k cs2 => simp at h
  · refine ⟨?_, ?_, ?_, ?_⟩
    · intro h
      simp [warning_value, h]
    · intro k cs2 h
      simp [warning_value, h]
    · intro k t h hp
      simp [warning_value, h, hp]
    · intro v h
      unfold warning_value at h
      cases haf : after_first .TIMESTAMP_DELAY_MARK cs with
      | none => rw [haf] at h; simp at h
      | some e =>
        rw [haf] at h
        cases e with
        | token k t =>
          refine ⟨k, t, rfl, ?_⟩
          simpa using h
        | node k cs2 => simp at h

/-- Witness for C8: on a node whose repeater mark is followed by the
overflowing text 4294967296, repeater_value is absent, and on a node with
no delay mark, warning_value is absent. -/
theorem value_accessors_absent_witness :
    repeater_value
      [.token .TIMESTAMP_REPEATER_MARK [43],
        .token .TIMESTAMP_VALUE [52, 50, 57, 52, 57, 54, 55, 50, 57, 54]] = none ∧
    warning_value [.token .TIMESTAMP_VALUE [49]] = none :=
  ⟨(value_accessors_absent
      [.token .TIMESTAMP_REPEATER_MARK [43],
        .token .TIMESTAMP_VALUE [52, 50, 57, 52, 57, 54, 55, 50, 57, 54]]).1.2.2.1
      .TIMESTAMP_VALUE [52, 50, 57, 52, 57, 54, 55, 50, 57, 54] (by rfl) (by rfl),
    (value_accessors_absent [.token .TIMESTAMP_VALUE [49]]).2.1 (by rfl)⟩

end Orgize
